import Mathlib

/-!
Verification of the day-12 height-map shortest-path engine
(`src/days/day12/src/main.rs`).

The Rust code is shallowly embedded below.  Positions are pairs of
naturals (row, column), elevations are naturals, and the floating-point
cost field `f` of `DijkstraNode` is modelled as a `Nat`: in the program
`f` only ever holds the exact integer values `0, 1, 2, ...` (it starts at
`0.0` and only ever has `1.0` added), a range on which `f64` arithmetic
and `total_cmp` agree exactly with the natural numbers.

The Rust `BinaryHeap` pops a maximal element under the reversed `Ord` of
`DijkstraNode`, i.e. an element of minimal cost `f`; ties are broken in
an unspecified way by the heap structure.  The embedding refines this
nondeterminism deterministically: `extractMin` removes the first
element of minimal `f` from the list modelling the heap's contents.
All properties proved below about path length, closure counts and path
shape are tie-break independent on the grids used as witnesses.

The `HashMap` used for the closed set is modelled as an association
list whose `insert` conses at the front and whose lookup takes the
first matching key (the same observable semantics).
-/

namespace Day12

/-- A grid position `(row, column)`, as in the Rust `(usize, usize)`. -/
abbrev Pos := Nat × Nat

/-- Embedding of `dijkstra::DijkstraNode`.  The cost `f` is a `Nat`
(see the header comment on the exact-integer modelling of the `f64`). -/
structure DijkstraNode where
  position : Pos
  parent : Option Pos
  f : Nat
deriving Repr, DecidableEq

/-- Embedding of `impl Ord for DijkstraNode`:
`fn cmp(&self, other) { other.f.total_cmp(&self.f) }`, i.e. the
comparison of the cost fields with the arguments swapped. -/
def DijkstraNode.cmp (a b : DijkstraNode) : Ordering :=
  compare b.f a.f

/-- Embedding of `struct HeightMap`.  `endPos` is the field named `end`
in the Rust source (`end` is a Lean keyword). -/
structure HeightMap where
  heights : List (List Nat)
  start : Pos
  endPos : Pos
deriving Repr, DecidableEq

/-- Embedding of `HeightMap::new`, which builds the record from its
arguments without any validation. -/
def HeightMap.new (heights : List (List Nat)) (start endp : Pos) : HeightMap :=
  { heights := heights, start := start, endPos := endp }

/-- `self.heights[p.0][p.1]` (out-of-range indexing, which panics in
Rust, is defaulted to `0`; every theorem below restricts attention to
in-bounds accesses on well-shaped grids). -/
def heightAt (hm : HeightMap) (p : Pos) : Nat :=
  (hm.heights.getD p.1 []).getD p.2 0

/-- `self.heights.len()`: the number of rows. -/
def rows (hm : HeightMap) : Nat := hm.heights.length

/-- `self.heights[0].len()`: the width the Rust code measures on row 0. -/
def width (hm : HeightMap) : Nat := (hm.heights.getD 0 []).length

/-- A position lies inside the `rows hm × width hm` rectangle. -/
def inBounds (hm : HeightMap) (p : Pos) : Prop :=
  p.1 < rows hm ∧ p.2 < width hm

instance (hm : HeightMap) (p : Pos) : Decidable (inBounds hm p) := by
  unfold inBounds; infer_instance

/-- Embedding of `HeightMap::get_higher_neighbours`: the in-bounds
north/south/west/east neighbours whose elevation is at most the current
elevation plus one, in the order the Rust code pushes them. -/
def get_higher_neighbours (hm : HeightMap) (position : Pos) : List Pos :=
  let posHeight := heightAt hm position
  (if position.1 > 0 ∧ heightAt hm (position.1 - 1, position.2) ≤ posHeight + 1 then
    [(position.1 - 1, position.2)] else []) ++
  (if position.1 < rows hm - 1 ∧ heightAt hm (position.1 + 1, position.2) ≤ posHeight + 1 then
    [(position.1 + 1, position.2)] else []) ++
  (if position.2 > 0 ∧ heightAt hm (position.1, position.2 - 1) ≤ posHeight + 1 then
    [(position.1, position.2 - 1)] else []) ++
  (if position.2 < width hm - 1 ∧ heightAt hm (position.1, position.2 + 1) ≤ posHeight + 1 then
    [(position.1, position.2 + 1)] else [])

/-- Embedding of `HeightMap::get_lower_neighbours`: the in-bounds
neighbours whose elevation is at least `pos_height.saturating_sub(1)`;
`Nat` subtraction is exactly Rust's saturating subtraction. -/
def get_lower_neighbours (hm : HeightMap) (position : Pos) : List Pos :=
  let posHeight := heightAt hm position
  (if position.1 > 0 ∧ heightAt hm (position.1 - 1, position.2) ≥ posHeight - 1 then
    [(position.1 - 1, position.2)] else []) ++
  (if position.1 < rows hm - 1 ∧ heightAt hm (position.1 + 1, position.2) ≥ posHeight - 1 then
    [(position.1 + 1, position.2)] else []) ++
  (if position.2 > 0 ∧ heightAt hm (position.1, position.2 - 1) ≥ posHeight - 1 then
    [(position.1, position.2 - 1)] else []) ++
  (if position.2 < width hm - 1 ∧ heightAt hm (position.1, position.2 + 1) ≥ posHeight - 1 then
    [(position.1, position.2 + 1)] else [])

/-- Keys of the closed map (the closed positions, most recent first). -/
def keys (cm : List (Pos × DijkstraNode)) : List Pos := cm.map Prod.fst

/-- Positions of the nodes of an open list. -/
def poss (ol : List DijkstraNode) : List Pos := ol.map DijkstraNode.position

/-- `closed_map.get(&p)` / `closed_map.contains_key(&p)`: first entry
with key `p` (the most recently inserted one). -/
def lookupPos (cm : List (Pos × DijkstraNode)) (p : Pos) : Option DijkstraNode :=
  (cm.find? (fun e => e.1 == p)).map (fun e => e.2)

/-- `open_list.pop()` on the `BinaryHeap`: removes an element of
minimal cost `f` (the heap's maximum under the reversed
`DijkstraNode` order); the embedding takes the first minimal one. -/
def extractMin : List DijkstraNode → Option (DijkstraNode × List DijkstraNode)
  | [] => none
  | n :: rest =>
    match extractMin rest with
    | none => some (n, [])
    | some (m, rest2) => if n.f ≤ m.f then some (n, rest) else some (m, n :: rest2)

/-- One neighbour of the popped node, processed as in the Rust `for`
body: skip if closed; skip if some open entry for the same position has
cost at most `node.f + 1` (the `min_by`/`total_cmp` scan); otherwise
push the new node. -/
def pushNeighbour (cm : List (Pos × DijkstraNode)) (nodePos : Pos) (nodeF : Nat)
    (ol : List DijkstraNode) (npos : Pos) : List DijkstraNode :=
  if (lookupPos cm npos).isSome then ol
  else
    let neighbourF := nodeF + 1
    match ((ol.filter (fun n => n.position == npos)).map (fun n => n.f)).min? with
    | some f => if f ≤ neighbourF then ol
                else ol ++ [⟨npos, some nodePos, neighbourF⟩]
    | none => ol ++ [⟨npos, some nodePos, neighbourF⟩]

/-- The whole `for neighbour_pos in ...` loop of one iteration. -/
def relaxNeighbours (cm : List (Pos × DijkstraNode)) (nodePos : Pos) (nodeF : Nat)
    (nbl : List Pos) (ol : List DijkstraNode) : List DijkstraNode :=
  nbl.foldl (pushNeighbour cm nodePos nodeF) ol

/-- The `while let Some(node) = open_list.pop()` loop, shared by both
search methods and parameterised by the neighbour rule and the goal
test.  It returns the final closed map and the goal position the loop
broke on (`none` if the open list was exhausted).  The loop is embedded
with explicit fuel; `none` at the outer option means the fuel ran out,
which is proved impossible for the fuel the two search functions use. -/
def searchLoopO (nb : Pos → List Pos) (goal : Pos → Bool) :
    Nat → List DijkstraNode → List (Pos × DijkstraNode) →
    Option (List (Pos × DijkstraNode) × Option Pos)
  | 0, _, _ => none
  | fuel + 1, ol, cm =>
    match extractMin ol with
    | none => some (cm, none)
    | some (u, rest) =>
      let ol2 := relaxNeighbours cm u.position u.f (nb u.position) rest
      let cm2 := (u.position, u) :: cm
      if goal u.position then some (cm2, some u.position)
      else searchLoopO nb goal fuel ol2 cm2

/-- `height * width`, the number of grid cells; the loop fuel used by
the two search functions is one more than this. -/
def numCells (hm : HeightMap) : Nat := rows hm * width hm

/-- Path rebuilding of `calculate_start_end_path`: walk the parent
links from `p`, prepending (`path.insert(0, ...)`) a
`(position, elevation)` pair at each step. -/
def rebuildForward (hm : HeightMap) (cm : List (Pos × DijkstraNode)) :
    Nat → Pos → List (Pos × Nat) → List (Pos × Nat)
  | 0, _, path => path
  | fuel + 1, p, path =>
    match lookupPos cm p with
    | none => path
    | some node =>
      let path' := (p, heightAt hm p) :: path
      match node.parent with
      | some pp => rebuildForward hm cm fuel pp path'
      | none => path'

/-- Path rebuilding of `calculate_shortest_hike_path`: identical except
that it appends (`path.push(...)`), so the result runs from the
discovered goal cell back to the search source. -/
def rebuildReverse (hm : HeightMap) (cm : List (Pos × DijkstraNode)) :
    Nat → Pos → List (Pos × Nat) → List (Pos × Nat)
  | 0, _, path => path
  | fuel + 1, p, path =>
    match lookupPos cm p with
    | none => path
    | some node =>
      let path' := path ++ [(p, heightAt hm p)]
      match node.parent with
      | some pp => rebuildReverse hm cm fuel pp path'
      | none => path'

/-- Embedding of `HeightMap::calculate_start_end_path`: search from
`start` under the ascent-limited rule until `end` is popped, then
rebuild the path from `end` backwards (source-to-goal order). -/
def calculate_start_end_path (hm : HeightMap) : List (Pos × Nat) :=
  match searchLoopO (fun p => get_higher_neighbours hm p) (fun p => p == hm.endPos)
      (numCells hm + 1) [⟨hm.start, none, 0⟩] [] with
  | none => []
  | some (cm, _) => rebuildForward hm cm (cm.length + 1) hm.endPos []

/-- Embedding of `HeightMap::calculate_shortest_hike_path`: search from
`end` under the descent-limited rule until a cell of elevation `0` is
popped; `target_pos` keeps its initial value `(0, 0)` when the loop
exhausts the open list, exactly as in the Rust code. -/
def calculate_shortest_hike_path (hm : HeightMap) : List (Pos × Nat) :=
  match searchLoopO (fun p => get_lower_neighbours hm p) (fun p => heightAt hm p == 0)
      (numCells hm + 1) [⟨hm.endPos, none, 0⟩] [] with
  | none => []
  | some (cm, res) => rebuildReverse hm cm (cm.length + 1) (res.getD (0, 0)) []

/-- A grid is well-shaped when it is non-empty, rectangular and carries
in-bounds `start`/`end` markers (the invariants §3 of the spec demands
of every constructed grid). -/
structure ValidMap (hm : HeightMap) : Prop where
  rowsPos : 0 < rows hm
  widthPos : 0 < width hm
  rect : ∀ row ∈ hm.heights, row.length = width hm
  startIn : inBounds hm hm.start
  endIn : inBounds hm hm.endPos

instance (hm : HeightMap) : Decidable (ValidMap hm) := by
  refine decidable_of_iff
    (0 < rows hm ∧ 0 < width hm ∧ (∀ row ∈ hm.heights, row.length = width hm) ∧
      inBounds hm hm.start ∧ inBounds hm hm.endPos) ?_
  constructor
  · rintro ⟨h1, h2, h3, h4, h5⟩; exact ⟨h1, h2, h3, h4, h5⟩
  · rintro ⟨h1, h2, h3, h4, h5⟩; exact ⟨h1, h2, h3, h4, h5⟩

/-- All in-bounds cells, row-major. -/
def allCells (hm : HeightMap) : List Pos :=
  (List.range (rows hm)) ×ˢ (List.range (width hm))

/-- Walks of a given edge count in the directed graph generated by a
neighbour rule: `Walks nb src n q` holds when `q` is reachable from
`src` in exactly `n` steps, each step moving to a listed neighbour. -/
inductive Walks (nb : Pos → List Pos) (src : Pos) : Nat → Pos → Prop
  | refl : Walks nb src 0 src
  | step {n p q} : Walks nb src n p → q ∈ nb p → Walks nb src (n + 1) q

/-! ### Basic lemmas about the open-list pop and the closed map -/

theorem extractMin_eq_none : ∀ {l : List DijkstraNode}, extractMin l = none ↔ l = []
  | [] => by simp [extractMin]
  | n :: rest => by
    simp only [extractMin]
    cases h : extractMin rest with
    | none => simp
    | some p =>
      obtain ⟨m, r2⟩ := p
      by_cases hf : n.f ≤ m.f <;> simp [hf]

theorem extractMin_perm :
    ∀ {l u rest}, extractMin l = some (u, rest) → l.Perm (u :: rest)
  | [], _, _, h => by simp [extractMin] at h
  | n :: l, u, rest, h => by
    cases hr : extractMin l with
    | none =>
      have hl : l = [] := extractMin_eq_none.mp hr
      subst hl
      simp only [extractMin, Option.some.injEq, Prod.mk.injEq] at h
      obtain ⟨rfl, rfl⟩ := h
      exact List.Perm.refl _
    | some p =>
      obtain ⟨m, r2⟩ := p
      simp only [extractMin, hr] at h
      by_cases hf : n.f ≤ m.f
      · rw [if_pos hf] at h
        simp only [Option.some.injEq, Prod.mk.injEq] at h
        obtain ⟨rfl, rfl⟩ := h
        exact List.Perm.refl _
      · rw [if_neg hf] at h
        simp only [Option.some.injEq, Prod.mk.injEq] at h
        obtain ⟨rfl, rfl⟩ := h
        exact ((extractMin_perm hr).cons n).trans (List.Perm.swap m n r2)

theorem extractMin_min :
    ∀ {l u rest}, extractMin l = some (u, rest) → ∀ m ∈ l, u.f ≤ m.f
  | [], _, _, h => by simp [extractMin] at h
  | n :: l, u, rest, h => by
    cases hr : extractMin l with
    | none =>
      have hl : l = [] := extractMin_eq_none.mp hr
      subst hl
      simp only [extractMin, Option.some.injEq, Prod.mk.injEq] at h
      obtain ⟨rfl, rfl⟩ := h
      intro m hm
      rcases List.mem_singleton.mp hm with rfl
      exact Nat.le_refl _
    | some p =>
      obtain ⟨m0, r2⟩ := p
      simp only [extractMin, hr] at h
      by_cases hf : n.f ≤ m0.f
      · rw [if_pos hf] at h
        simp only [Option.some.injEq, Prod.mk.injEq] at h
        obtain ⟨rfl, rfl⟩ := h
        intro m hm
        rcases List.mem_cons.mp hm with rfl | hm
        · exact Nat.le_refl _
        · exact Nat.le_trans hf (extractMin_min hr m hm)
      · rw [if_neg hf] at h
        simp only [Option.some.injEq, Prod.mk.injEq] at h
        obtain ⟨rfl, rfl⟩ := h
        intro m hm
        rcases List.mem_cons.mp hm with rfl | hm
        · exact Nat.le_of_lt (Nat.lt_of_not_le hf)
        · exact extractMin_min hr m hm

theorem extractMin_mem {l u rest} (h : extractMin l = some (u, rest)) : u ∈ l :=
  (extractMin_perm h).mem_iff.mpr (List.mem_cons_self u rest)

theorem lookupPos_cons (k : Pos) (v : DijkstraNode) (cm : List (Pos × DijkstraNode)) (p : Pos) :
    lookupPos ((k, v) :: cm) p = if k = p then some v else lookupPos cm p := by
  by_cases h : k = p
  · subst h
    simp [lookupPos, List.find?_cons_of_pos]
  · rw [if_neg h]
    unfold lookupPos
    rw [List.find?_cons_of_neg]
    simpa using h

theorem lookupPos_isSome_iff {cm : List (Pos × DijkstraNode)} {p : Pos} :
    (lookupPos cm p).isSome ↔ p ∈ keys cm := by
  simp only [lookupPos, keys, Option.isSome_map', List.find?_isSome, List.mem_map]
  constructor
  · rintro ⟨e, he, hb⟩
    exact ⟨e, he, by simpa using hb⟩
  · rintro ⟨e, he, hb⟩
    exact ⟨e, he, by simpa using hb⟩

theorem lookupPos_eq_none_iff {cm : List (Pos × DijkstraNode)} {p : Pos} :
    lookupPos cm p = none ↔ p ∉ keys cm := by
  rw [← Option.not_isSome_iff_eq_none, lookupPos_isSome_iff]

theorem lookupPos_mem {cm : List (Pos × DijkstraNode)} {p : Pos} {n : DijkstraNode}
    (h : lookupPos cm p = some n) : (p, n) ∈ cm := by
  simp only [lookupPos, Option.map_eq_some'] at h
  obtain ⟨e, he, rfl⟩ := h
  have h1 : e.1 = p := by simpa using List.find?_some he
  have h2 : e ∈ cm := List.mem_of_find?_eq_some he
  rw [← h1]
  exact h2

theorem mem_keys_of_lookupPos {cm : List (Pos × DijkstraNode)} {p : Pos} {n : DijkstraNode}
    (h : lookupPos cm p = some n) : p ∈ keys cm :=
  lookupPos_isSome_iff.mp (by rw [h]; rfl)

/-! ### Characterisation of one neighbour-relaxation pass -/

theorem pushNeighbour_eq {cm : List (Pos × DijkstraNode)} {nodePos : Pos} {nodeF : Nat}
    {ol : List DijkstraNode} {npos : Pos} (h : ∀ n ∈ ol, n.f ≤ nodeF + 1) :
    pushNeighbour cm nodePos nodeF ol npos =
      if npos ∈ keys cm ∨ npos ∈ poss ol then ol
      else ol ++ [⟨npos, some nodePos, nodeF + 1⟩] := by
  unfold pushNeighbour
  by_cases hcm : npos ∈ keys cm
  · rw [if_pos (lookupPos_isSome_iff.mpr hcm), if_pos (Or.inl hcm)]
  · rw [if_neg (by rw [lookupPos_isSome_iff]; exact hcm)]
    by_cases hmem : npos ∈ poss ol
    · obtain ⟨x, hx, hxp⟩ := List.mem_map.mp hmem
      have hxf : x ∈ ol.filter (fun n => n.position == npos) :=
        List.mem_filter.mpr ⟨hx, by simpa using hxp⟩
      have hmm : x.f ∈ (ol.filter (fun n => n.position == npos)).map (fun n => n.f) :=
        List.mem_map.mpr ⟨x, hxf, rfl⟩
      have hsome := List.isSome_min?_of_mem hmm
      obtain ⟨a, ha⟩ := Option.isSome_iff_exists.mp hsome
      have hha := List.min?_mem (fun a b => min_choice a b) ha
      obtain ⟨y, hy, hyf⟩ := List.mem_map.mp hha
      have hya : a ≤ nodeF + 1 := hyf ▸ h y (List.mem_of_mem_filter hy)
      simp only [ha, if_pos hya, if_pos (Or.inr hmem)]
    · have hfil : ol.filter (fun n => n.position == npos) = [] := by
        rw [List.filter_eq_nil_iff]
        intro n hn hb
        exact hmem (List.mem_map.mpr ⟨n, hn, by simpa using hb⟩)
      simp only [hfil, List.map_nil, List.min?_nil]
      rw [if_neg]
      rintro (hc | hc)
      · exact hcm hc
      · exact hmem hc

theorem poss_append (l1 l2 : List DijkstraNode) : poss (l1 ++ l2) = poss l1 ++ poss l2 :=
  List.map_append _ _ _

theorem relax_spec (cm : List (Pos × DijkstraNode)) (nodePos : Pos) (nodeF : Nat) :
    ∀ (nbl : List Pos) (ol : List DijkstraNode), (∀ n ∈ ol, n.f ≤ nodeF + 1) →
    ∃ L, relaxNeighbours cm nodePos nodeF nbl ol = ol ++ L ∧
      (∀ n ∈ L, n.parent = some nodePos ∧ n.f = nodeF + 1 ∧ n.position ∈ nbl ∧
        n.position ∉ keys cm ∧ n.position ∉ poss ol) ∧
      (poss L).Nodup ∧
      (∀ v ∈ nbl, v ∈ keys cm ∨ v ∈ poss (ol ++ L))
  | [], ol, _ => ⟨[], by simp [relaxNeighbours], by simp, by simp [poss], by simp⟩
  | v :: vs, ol, h => by
    have hstep : relaxNeighbours cm nodePos nodeF (v :: vs) ol =
        relaxNeighbours cm nodePos nodeF vs (pushNeighbour cm nodePos nodeF ol v) := rfl
    by_cases hv : v ∈ keys cm ∨ v ∈ poss ol
    · obtain ⟨L, hrel, hprops, hnodup, hcov⟩ := relax_spec cm nodePos nodeF vs ol h
      refine ⟨L, ?_, ?_, hnodup, ?_⟩
      · rw [hstep, pushNeighbour_eq h, if_pos hv, hrel]
      · intro n hn
        obtain ⟨h1, h2, h3, h4, h5⟩ := hprops n hn
        exact ⟨h1, h2, List.mem_cons_of_mem v h3, h4, h5⟩
      · intro w hw
        rcases List.mem_cons.mp hw with rfl | hw
        · rcases hv with hv | hv
          · exact Or.inl hv
          · exact Or.inr (by rw [poss_append]; exact List.mem_append_left _ hv)
        · exact hcov w hw
    · push_neg at hv
      have h' : ∀ n ∈ ol ++ [(⟨v, some nodePos, nodeF + 1⟩ : DijkstraNode)], n.f ≤ nodeF + 1 := by
        intro n hn
        rcases List.mem_append.mp hn with hn | hn
        · exact h n hn
        · rcases List.mem_singleton.mp hn with rfl
          exact Nat.le_refl _
      obtain ⟨L', hrel', hprops', hnodup', hcov'⟩ :=
        relax_spec cm nodePos nodeF vs (ol ++ [⟨v, some nodePos, nodeF + 1⟩]) h'
      have hassoc : ol ++ [(⟨v, some nodePos, nodeF + 1⟩ : DijkstraNode)] ++ L' =
          ol ++ (⟨v, some nodePos, nodeF + 1⟩ :: L') := by
        rw [List.append_assoc]
        rfl
      refine ⟨⟨v, some nodePos, nodeF + 1⟩ :: L', ?_, ?_, ?_, ?_⟩
      · rw [hstep, pushNeighbour_eq h, if_neg (by push_neg; exact hv), hrel', hassoc]
      · intro n hn
        rcases List.mem_cons.mp hn with rfl | hn
        · exact ⟨rfl, rfl, List.mem_cons_self v vs, hv.1, hv.2⟩
        · obtain ⟨h1, h2, h3, h4, h5⟩ := hprops' n hn
          refine ⟨h1, h2, List.mem_cons_of_mem v h3, h4, fun hc => h5 ?_⟩
          rw [poss_append]
          exact List.mem_append_left _ hc
      · have hcons : poss (⟨v, some nodePos, nodeF + 1⟩ :: L') = v :: poss L' := rfl
        rw [hcons, List.nodup_cons]
        refine ⟨fun hc => ?_, hnodup'⟩
        obtain ⟨x, hx, hxp⟩ := List.mem_map.mp hc
        have h5 := (hprops' x hx).2.2.2.2
        rw [poss_append] at h5
        refine h5 (List.mem_append_right _ ?_)
        have : poss [(⟨v, some nodePos, nodeF + 1⟩ : DijkstraNode)] = [v] := rfl
        rw [this, hxp]
        exact List.mem_singleton_self v
      · intro w hw
        rcases List.mem_cons.mp hw with rfl | hw
        · refine Or.inr ?_
          rw [poss_append]
          exact List.mem_append_right _ (List.mem_cons_self _ _)
        · rcases hcov' w hw with hc | hc
          · exact Or.inl hc
          · rw [hassoc] at hc
            exact Or.inr hc

/-! ### The loop invariant of the uniform-cost search -/

/-- The invariant maintained by the `while let Some(node) = open_list.pop()`
loop, for a neighbour rule `nb`, goal test `goal`, search source `src`
and a finite universe `univ` of admissible positions. -/
structure Inv (nb : Pos → List Pos) (goal : Pos → Bool) (src : Pos) (univ : List Pos)
    (ol : List DijkstraNode) (cm : List (Pos × DijkstraNode)) : Prop where
  nodup : (poss ol ++ keys cm).Nodup
  olUniv : ∀ n ∈ ol, n.position ∈ univ
  cmUniv : ∀ p ∈ keys cm, p ∈ univ
  cmPos : ∀ e ∈ cm, e.2.position = e.1
  olWalk : ∀ n ∈ ol, Walks nb src n.f n.position
  cmWalk : ∀ e ∈ cm, Walks nb src e.2.f e.1
  olMin : ∀ n ∈ ol, ∀ L, Walks nb src L n.position → n.f ≤ L
  spread : ∀ n ∈ ol, ∀ m ∈ ol, n.f ≤ m.f + 1
  closure : ∀ p ∈ keys cm, ∀ v ∈ nb p, v ∈ keys cm ∨ v ∈ poss ol
  srcIn : src ∈ keys cm ∨ src ∈ poss ol
  noGoal : ∀ p ∈ keys cm, goal p = false
  olChain : ∀ n ∈ ol, (n.parent = none → n.position = src ∧ n.f = 0) ∧
    (∀ pp, n.parent = some pp →
      ∃ m, lookupPos cm pp = some m ∧ m.f + 1 = n.f ∧ n.position ∈ nb pp)
  cmChain : ∀ e ∈ cm, (e.2.parent = none → e.1 = src ∧ e.2.f = 0) ∧
    (∀ pp, e.2.parent = some pp →
      ∃ m, lookupPos cm pp = some m ∧ m.f + 1 = e.2.f ∧ e.1 ∈ nb pp)

/-- Any walk ending outside the closed set crosses the open frontier:
some open node sits on the walk, at an index bounding its cost. -/
theorem frontier {nb : Pos → List Pos} {src : Pos} {ol : List DijkstraNode}
    {cm : List (Pos × DijkstraNode)}
    (hclo : ∀ p ∈ keys cm, ∀ v ∈ nb p, v ∈ keys cm ∨ v ∈ poss ol)
    (hsrc : src ∈ keys cm ∨ src ∈ poss ol) :
    ∀ {n q}, Walks nb src n q → q ∉ keys cm →
      ∃ m ∈ ol, ∃ j, j ≤ n ∧ Walks nb src j m.position ∧ (j = n → m.position = q) := by
  intro n q hw
  induction hw with
  | refl =>
    intro hq
    rcases hsrc with hs | hs
    · exact absurd hs hq
    · obtain ⟨m, hm, hpos⟩ := List.mem_map.mp hs
      exact ⟨m, hm, 0, Nat.le_refl 0, hpos ▸ Walks.refl, fun _ => hpos⟩
  | @step n' p q' hwp hq ih =>
    intro hq'
    by_cases hp : p ∈ keys cm
    · rcases hclo p hp q' hq with hc | hc
      · exact absurd hc hq'
      · obtain ⟨m, hm, hpos⟩ := List.mem_map.mp hc
        exact ⟨m, hm, n' + 1, Nat.le_refl _, hpos ▸ hwp.step hq, fun _ => hpos⟩
    · obtain ⟨m, hm, j, hj, hwj, _⟩ := ih hp
      exact ⟨m, hm, j, Nat.le_succ_of_le hj, hwj,
        fun hjn => ((Nat.ne_of_lt (Nat.lt_succ_of_le hj)) hjn).elim⟩

/-- When the loop pops `u`, its cost is a lower bound on the length of
every walk from the source to any goal-satisfying cell. -/
theorem pop_goal_min {nb : Pos → List Pos} {goal : Pos → Bool} {src : Pos} {univ : List Pos}
    {ol : List DijkstraNode} {cm : List (Pos × DijkstraNode)} {u : DijkstraNode}
    {rest : List DijkstraNode}
    (inv : Inv nb goal src univ ol cm)
    (hpop : extractMin ol = some (u, rest)) :
    ∀ L q, goal q = true → Walks nb src L q → u.f ≤ L := by
  intro L q hg hw
  have hq : q ∉ keys cm := fun hq => by
    rw [inv.noGoal q hq] at hg
    exact Bool.false_ne_true hg
  obtain ⟨m, hm, j, hj, hwj, _⟩ := frontier inv.closure inv.srcIn hw hq
  exact Nat.le_trans (extractMin_min hpop m hm) (Nat.le_trans (inv.olMin m hm j hwj) hj)

/-- A freshly pushed neighbour is pushed at its exact distance: no walk
from the source reaches it in fewer than `u.f + 1` steps. -/
theorem push_min {nb : Pos → List Pos} {goal : Pos → Bool} {src : Pos} {univ : List Pos}
    {ol : List DijkstraNode} {cm : List (Pos × DijkstraNode)} {u : DijkstraNode}
    {rest : List DijkstraNode}
    (inv : Inv nb goal src univ ol cm)
    (hpop : extractMin ol = some (u, rest))
    (hirr : ∀ p, p ∉ nb p)
    {v : Pos} (hv : v ∈ nb u.position) (hcm : v ∉ keys cm) (hrest : v ∉ poss rest) :
    ∀ L, Walks nb src L v → u.f + 1 ≤ L := by
  intro L hw
  have hvol : v ∉ poss ol := by
    intro hc
    have hperm : (poss ol).Perm (u.position :: poss rest) := (extractMin_perm hpop).map _
    rw [hperm.mem_iff] at hc
    rcases List.mem_cons.mp hc with he | hc
    · rw [he] at hv
      exact hirr u.position hv
    · exact hrest hc
  obtain ⟨m, hm, j, hj, hwj, hje⟩ := frontier inv.closure inv.srcIn hw hcm
  have hmf : m.f ≤ j := inv.olMin m hm j hwj
  have huf : u.f ≤ m.f := extractMin_min hpop m hm
  by_cases hjL : j = L
  · exact absurd (List.mem_map.mpr ⟨m, hm, hje hjL⟩) hvol
  · have : j < L := Nat.lt_of_le_of_ne hj hjL
    omega

/-- One non-goal iteration of the search loop preserves the invariant. -/
theorem step_preserve {nb : Pos → List Pos} {goal : Pos → Bool} {src : Pos} {univ : List Pos}
    (hirr : ∀ p, p ∉ nb p)
    (hcloU : ∀ p ∈ univ, ∀ q ∈ nb p, q ∈ univ)
    {ol : List DijkstraNode} {cm : List (Pos × DijkstraNode)} {u : DijkstraNode}
    {rest : List DijkstraNode}
    (inv : Inv nb goal src univ ol cm)
    (hpop : extractMin ol = some (u, rest))
    (hng : goal u.position = false) :
    Inv nb goal src univ (relaxNeighbours cm u.position u.f (nb u.position) rest)
      ((u.position, u) :: cm) := by
  have hperm : ol.Perm (u :: rest) := extractMin_perm hpop
  have hpossperm : (poss ol).Perm (u.position :: poss rest) := hperm.map _
  have hmemol : u ∈ ol := extractMin_mem hpop
  have hrest_sub : ∀ n ∈ rest, n ∈ ol := fun n hn =>
    hperm.mem_iff.mpr (List.mem_cons_of_mem _ hn)
  have hub : ∀ n ∈ rest, n.f ≤ u.f + 1 := fun n hn => inv.spread n (hrest_sub n hn) u hmemol
  obtain ⟨L, hrel, hprops, hLnodup, hcov⟩ := relax_spec cm u.position u.f (nb u.position) rest hub
  rw [hrel]
  have hnd := List.nodup_append.mp inv.nodup
  have hposs_ol_nodup : (poss ol).Nodup := hnd.1
  have hkeys_nodup : (keys cm).Nodup := hnd.2.1
  have hdisj : (poss ol).Disjoint (keys cm) := hnd.2.2
  have hcons_nodup : (u.position :: poss rest).Nodup := hpossperm.nodup_iff.mp hposs_ol_nodup
  have hupos_rest : u.position ∉ poss rest := (List.nodup_cons.mp hcons_nodup).1
  have hrest_nodup : (poss rest).Nodup := (List.nodup_cons.mp hcons_nodup).2
  have hupos_cm : u.position ∉ keys cm :=
    hdisj (hpossperm.mem_iff.mpr (List.mem_cons_self _ _))
  have hLne : ∀ n ∈ L, n.position ≠ u.position := by
    intro n hn he
    have := (hprops n hn).2.2.1
    rw [he] at this
    exact hirr u.position this
  have hlook_pres : ∀ pp m, lookupPos cm pp = some m →
      lookupPos ((u.position, u) :: cm) pp = some m := by
    intro pp m hl
    rw [lookupPos_cons, if_neg]
    · exact hl
    · intro he
      exact hupos_cm (he ▸ mem_keys_of_lookupPos hl)
  have hkeys_cons : keys ((u.position, u) :: cm) = u.position :: keys cm := rfl
  refine ⟨?_, ?_, ?_, ?_, ?_, ?_, ?_, ?_, ?_, ?_, ?_, ?_, ?_⟩
  · -- nodup
    rw [poss_append, hkeys_cons]
    have hA : (poss rest ++ poss L).Nodup := by
      rw [List.nodup_append]
      refine ⟨hrest_nodup, hLnodup, ?_⟩
      intro a ha hb
      obtain ⟨x, hx, hxp⟩ := List.mem_map.mp hb
      exact (hprops x hx).2.2.2.2 (hxp ▸ ha)
    have hB : (u.position :: keys cm).Nodup := List.nodup_cons.mpr ⟨hupos_cm, hkeys_nodup⟩
    rw [List.nodup_append]
    refine ⟨hA, hB, ?_⟩
    intro a ha hb
    rcases List.mem_append.mp ha with ha | ha
    · have haol : a ∈ poss ol := hpossperm.mem_iff.mpr (List.mem_cons_of_mem _ ha)
      rcases List.mem_cons.mp hb with rfl | hb
      · exact hupos_rest ha
      · exact hdisj haol hb
    · obtain ⟨x, hx, hxp⟩ := List.mem_map.mp ha
      rcases List.mem_cons.mp hb with rfl | hb
      · exact hLne x hx hxp
      · exact (hprops x hx).2.2.2.1 (hxp ▸ hb)
  · -- olUniv
    intro n hn
    rcases List.mem_append.mp hn with hn | hn
    · exact inv.olUniv n (hrest_sub n hn)
    · exact hcloU u.position (inv.olUniv u hmemol) n.position (hprops n hn).2.2.1
  · -- cmUniv
    intro p hp
    rw [hkeys_cons] at hp
    rcases List.mem_cons.mp hp with rfl | hp
    · exact inv.olUniv u hmemol
    · exact inv.cmUniv p hp
  · -- cmPos
    intro e he
    rcases List.mem_cons.mp he with rfl | he
    · rfl
    · exact inv.cmPos e he
  · -- olWalk
    intro n hn
    rcases List.mem_append.mp hn with hn | hn
    · exact inv.olWalk n (hrest_sub n hn)
    · obtain ⟨_, h2, h3, _, _⟩ := hprops n hn
      rw [h2]
      exact (inv.olWalk u hmemol).step h3
  · -- cmWalk
    intro e he
    rcases List.mem_cons.mp he with rfl | he
    · exact inv.olWalk u hmemol
    · exact inv.cmWalk e he
  · -- olMin
    intro n hn Lw hw
    rcases List.mem_append.mp hn with hn | hn
    · exact inv.olMin n (hrest_sub n hn) Lw hw
    · obtain ⟨_, h2, h3, h4, h5⟩ := hprops n hn
      rw [h2]
      exact push_min inv hpop hirr h3 h4 h5 Lw hw
  · -- spread
    intro n hn m hm
    rcases List.mem_append.mp hn with hn | hn <;> rcases List.mem_append.mp hm with hm | hm
    · exact inv.spread n (hrest_sub n hn) m (hrest_sub m hm)
    · rw [(hprops m hm).2.1]
      have := hub n hn
      omega
    · rw [(hprops n hn).2.1]
      have := extractMin_min hpop m (hrest_sub m hm)
      omega
    · rw [(hprops n hn).2.1, (hprops m hm).2.1]
      omega
  · -- closure
    intro p hp v hv
    rw [hkeys_cons] at hp ⊢
    rcases List.mem_cons.mp hp with rfl | hp
    · rcases hcov v hv with hc | hc
      · exact Or.inl (List.mem_cons_of_mem _ hc)
      · exact Or.inr hc
    · rcases inv.closure p hp v hv with hc | hc
      · exact Or.inl (List.mem_cons_of_mem _ hc)
      · rw [hpossperm.mem_iff] at hc
        rcases List.mem_cons.mp hc with rfl | hc
        · exact Or.inl (List.mem_cons_self _ _)
        · exact Or.inr (by rw [poss_append]; exact List.mem_append_left _ hc)
  · -- srcIn
    rw [hkeys_cons]
    rcases inv.srcIn with hs | hs
    · exact Or.inl (List.mem_cons_of_mem _ hs)
    · rw [hpossperm.mem_iff] at hs
      rcases List.mem_cons.mp hs with rfl | hs
      · exact Or.inl (List.mem_cons_self _ _)
      · exact Or.inr (by rw [poss_append]; exact List.mem_append_left _ hs)
  · -- noGoal
    intro p hp
    rw [hkeys_cons] at hp
    rcases List.mem_cons.mp hp with rfl | hp
    · exact hng
    · exact inv.noGoal p hp
  · -- olChain
    intro n hn
    rcases List.mem_append.mp hn with hn | hn
    · obtain ⟨h1, h2⟩ := inv.olChain n (hrest_sub n hn)
      refine ⟨h1, fun pp hpp => ?_⟩
      obtain ⟨m, hm1, hm2, hm3⟩ := h2 pp hpp
      exact ⟨m, hlook_pres pp m hm1, hm2, hm3⟩
    · obtain ⟨h1, h2, h3, _, _⟩ := hprops n hn
      refine ⟨fun hc => absurd (h1 ▸ hc) (by simp), fun pp hpp => ?_⟩
      rw [h1] at hpp
      obtain rfl := (Option.some.injEq _ _ ▸ hpp :)
      refine ⟨u, ?_, by omega, h3⟩
      rw [lookupPos_cons, if_pos rfl]
  · -- cmChain
    intro e he
    rcases List.mem_cons.mp he with rfl | he
    · obtain ⟨h1, h2⟩ := inv.olChain u hmemol
      refine ⟨h1, fun pp hpp => ?_⟩
      obtain ⟨m, hm1, hm2, hm3⟩ := h2 pp hpp
      exact ⟨m, hlook_pres pp m hm1, hm2, hm3⟩
    · obtain ⟨h1, h2⟩ := inv.cmChain e he
      refine ⟨h1, fun pp hpp => ?_⟩
      obtain ⟨m, hm1, hm2, hm3⟩ := h2 pp hpp
      exact ⟨m, hlook_pres pp m hm1, hm2, hm3⟩

/-! ### Termination measure and the loop postcondition -/

/-- Termination measure of the loop: open-list size plus the number of
admissible positions not yet seen in the open list or the closed map. -/
def searchMeasure (univ : List Pos) (ol : List DijkstraNode)
    (cm : List (Pos × DijkstraNode)) : Nat :=
  ol.length + (univ.toFinset \ ((poss ol).toFinset ∪ (keys cm).toFinset)).card

theorem measure_decrease {nb : Pos → List Pos} {goal : Pos → Bool} {src : Pos} {univ : List Pos}
    (hirr : ∀ p, p ∉ nb p)
    (hcloU : ∀ p ∈ univ, ∀ q ∈ nb p, q ∈ univ)
    {ol : List DijkstraNode} {cm : List (Pos × DijkstraNode)} {u : DijkstraNode}
    {rest : List DijkstraNode}
    (inv : Inv nb goal src univ ol cm)
    (hpop : extractMin ol = some (u, rest)) :
    searchMeasure univ (relaxNeighbours cm u.position u.f (nb u.position) rest)
      ((u.position, u) :: cm) < searchMeasure univ ol cm := by
  have hperm : ol.Perm (u :: rest) := extractMin_perm hpop
  have hpossperm : (poss ol).Perm (u.position :: poss rest) := hperm.map _
  have hmemol : u ∈ ol := extractMin_mem hpop
  have hrest_sub : ∀ n ∈ rest, n ∈ ol := fun n hn =>
    hperm.mem_iff.mpr (List.mem_cons_of_mem _ hn)
  have hub : ∀ n ∈ rest, n.f ≤ u.f + 1 := fun n hn => inv.spread n (hrest_sub n hn) u hmemol
  obtain ⟨L, hrel, hprops, hLnodup, hcov⟩ := relax_spec cm u.position u.f (nb u.position) rest hub
  have hLne : ∀ n ∈ L, n.position ≠ u.position := by
    intro n hn he
    have := (hprops n hn).2.2.1
    rw [he] at this
    exact hirr u.position this
  have hlen : ol.length = rest.length + 1 := by
    have := hperm.length_eq
    simpa using this
  have hP : (poss ol).toFinset = insert u.position (poss rest).toFinset := by
    rw [List.toFinset_eq_of_perm _ _ hpossperm]
    simp
  have hkeys' : (keys ((u.position, u) :: cm)).toFinset =
      insert u.position (keys cm).toFinset := by
    simp [keys]
  have hposs' : (poss (rest ++ L)).toFinset = (poss rest).toFinset ∪ (poss L).toFinset := by
    rw [poss_append]
    simp
  have hsets : ((poss rest).toFinset ∪ (poss L).toFinset) ∪
      insert u.position (keys cm).toFinset =
      (insert u.position (poss rest).toFinset ∪ (keys cm).toFinset) ∪ (poss L).toFinset := by
    ext a
    simp only [Finset.mem_union, Finset.mem_insert]
    tauto
  have hsd : univ.toFinset \
      ((insert u.position (poss rest).toFinset ∪ (keys cm).toFinset) ∪ (poss L).toFinset) =
      (univ.toFinset \ (insert u.position (poss rest).toFinset ∪ (keys cm).toFinset)) \
        (poss L).toFinset := by
    ext a
    simp only [Finset.mem_sdiff, Finset.mem_union]
    tauto
  have hsub : (poss L).toFinset ⊆
      univ.toFinset \ (insert u.position (poss rest).toFinset ∪ (keys cm).toFinset) := by
    intro a ha
    rw [List.mem_toFinset] at ha
    obtain ⟨x, hx, rfl⟩ := List.mem_map.mp ha
    obtain ⟨_, _, h3, h4, h5⟩ := hprops x hx
    rw [Finset.mem_sdiff, Finset.mem_union, Finset.mem_insert]
    refine ⟨?_, ?_⟩
    · rw [List.mem_toFinset]
      exact hcloU u.position (inv.olUniv u hmemol) x.position h3
    · push_neg
      refine ⟨⟨hLne x hx, ?_⟩, ?_⟩
      · rw [List.mem_toFinset]
        exact h5
      · rw [List.mem_toFinset]
        exact h4
  have hcardL : (poss L).toFinset.card = L.length := by
    rw [List.toFinset_card_of_nodup hLnodup]
    simp [poss]
  have h2 : L.length ≤
      (univ.toFinset \ (insert u.position (poss rest).toFinset ∪ (keys cm).toFinset)).card :=
    hcardL ▸ Finset.card_le_card hsub
  unfold searchMeasure
  rw [hrel, List.length_append, hposs', hkeys', hP, hlen, hsets, hsd,
    Finset.card_sdiff hsub, hcardL]
  omega

/-- Inserting the popped node into the closed map keeps the closed-map
facts needed by the postcondition (regardless of the goal test). -/
theorem close_preserve {nb : Pos → List Pos} {goal : Pos → Bool} {src : Pos} {univ : List Pos}
    {ol : List DijkstraNode} {cm : List (Pos × DijkstraNode)} {u : DijkstraNode}
    {rest : List DijkstraNode}
    (hirr : ∀ p, p ∉ nb p)
    (inv : Inv nb goal src univ ol cm)
    (hpop : extractMin ol = some (u, rest)) :
    (keys ((u.position, u) :: cm)).Nodup ∧
    (∀ p ∈ keys ((u.position, u) :: cm), p ∈ univ) ∧
    (∀ e ∈ (u.position, u) :: cm, e.2.position = e.1) ∧
    (∀ e ∈ (u.position, u) :: cm, Walks nb src e.2.f e.1) ∧
    (∀ e ∈ (u.position, u) :: cm, (e.2.parent = none → e.1 = src ∧ e.2.f = 0) ∧
      (∀ pp, e.2.parent = some pp →
        ∃ m, lookupPos ((u.position, u) :: cm) pp = some m ∧ m.f + 1 = e.2.f ∧ e.1 ∈ nb pp)) := by
  have hpossperm : (poss ol).Perm (u.position :: poss rest) := (extractMin_perm hpop).map _
  have hmemol : u ∈ ol := extractMin_mem hpop
  have hnd := List.nodup_append.mp inv.nodup
  have hupos_cm : u.position ∉ keys cm :=
    hnd.2.2 (hpossperm.mem_iff.mpr (List.mem_cons_self _ _))
  have hlook_pres : ∀ pp m, lookupPos cm pp = some m →
      lookupPos ((u.position, u) :: cm) pp = some m := by
    intro pp m hl
    rw [lookupPos_cons, if_neg]
    · exact hl
    · intro he
      exact hupos_cm (he ▸ mem_keys_of_lookupPos hl)
  refine ⟨?_, ?_, ?_, ?_, ?_⟩
  · exact List.nodup_cons.mpr ⟨hupos_cm, hnd.2.1⟩
  · intro p hp
    rcases List.mem_cons.mp hp with rfl | hp
    · exact inv.olUniv u hmemol
    · exact inv.cmUniv p hp
  · intro e he
    rcases List.mem_cons.mp he with rfl | he
    · rfl
    · exact inv.cmPos e he
  · intro e he
    rcases List.mem_cons.mp he with rfl | he
    · exact inv.olWalk u hmemol
    · exact inv.cmWalk e he
  · intro e he
    rcases List.mem_cons.mp he with rfl | he
    · obtain ⟨h1, h2⟩ := inv.olChain u hmemol
      refine ⟨h1, fun pp hpp => ?_⟩
      obtain ⟨m, hm1, hm2, hm3⟩ := h2 pp hpp
      exact ⟨m, hlook_pres pp m hm1, hm2, hm3⟩
    · obtain ⟨h1, h2⟩ := inv.cmChain e he
      refine ⟨h1, fun pp hpp => ?_⟩
      obtain ⟨m, hm1, hm2, hm3⟩ := h2 pp hpp
      exact ⟨m, hlook_pres pp m hm1, hm2, hm3⟩

/-- What holds of the loop's final state. -/
structure LoopOut (nb : Pos → List Pos) (goal : Pos → Bool) (src : Pos) (univ : List Pos)
    (cmF : List (Pos × DijkstraNode)) (res : Option Pos) : Prop where
  nodupKeys : (keys cmF).Nodup
  cmUniv : ∀ p ∈ keys cmF, p ∈ univ
  cmPos : ∀ e ∈ cmF, e.2.position = e.1
  cmWalk : ∀ e ∈ cmF, Walks nb src e.2.f e.1
  cmChain : ∀ e ∈ cmF, (e.2.parent = none → e.1 = src ∧ e.2.f = 0) ∧
    (∀ pp, e.2.parent = some pp →
      ∃ m, lookupPos cmF pp = some m ∧ m.f + 1 = e.2.f ∧ e.1 ∈ nb pp)
  onSome : ∀ g, res = some g → goal g = true ∧
    ∃ u cmP, cmF = (g, u) :: cmP ∧ u.position = g ∧ Walks nb src u.f g ∧
      (∀ L q, goal q = true → Walks nb src L q → u.f ≤ L)
  onNone : res = none → (∀ p ∈ keys cmF, goal p = false) ∧
    (∀ p ∈ keys cmF, ∀ v ∈ nb p, v ∈ keys cmF) ∧ src ∈ keys cmF

/-- Main loop lemma: given the invariant and enough fuel, the loop
finishes (the fuel is not exhausted) and its final state satisfies
`LoopOut`. -/
theorem loop_post {nb : Pos → List Pos} {goal : Pos → Bool} {src : Pos} {univ : List Pos}
    (hirr : ∀ p, p ∉ nb p)
    (hcloU : ∀ p ∈ univ, ∀ q ∈ nb p, q ∈ univ) :
    ∀ (fuel : Nat) (ol : List DijkstraNode) (cm : List (Pos × DijkstraNode)),
      Inv nb goal src univ ol cm → searchMeasure univ ol cm < fuel →
      ∃ cmF res, searchLoopO nb goal fuel ol cm = some (cmF, res) ∧
        LoopOut nb goal src univ cmF res := by
  intro fuel
  induction fuel with
  | zero => intro ol cm _ hm; omega
  | succ fuel ih =>
    intro ol cm inv hm
    cases hpop : extractMin ol with
    | none =>
      refine ⟨cm, none, by simp [searchLoopO, hpop], ?_⟩
      have holnil : ol = [] := extractMin_eq_none.mp hpop
      subst holnil
      refine ⟨(List.nodup_append.mp inv.nodup).2.1, inv.cmUniv, inv.cmPos, inv.cmWalk,
        inv.cmChain, ?_, ?_⟩
      · intro g hg
        exact absurd hg (by simp)
      · intro _
        refine ⟨inv.noGoal, ?_, ?_⟩
        · intro p hp v hv
          rcases inv.closure p hp v hv with hc | hc
          · exact hc
          · simp [poss] at hc
        · rcases inv.srcIn with hs | hs
          · exact hs
          · simp [poss] at hs
    | some pr =>
      obtain ⟨u, rest⟩ := pr
      by_cases hg : goal u.position
      · refine ⟨(u.position, u) :: cm, some u.position, by simp [searchLoopO, hpop, hg], ?_⟩
        obtain ⟨hn1, hn2, hn3, hn4, hn5⟩ := close_preserve hirr inv hpop
        refine ⟨hn1, hn2, hn3, hn4, hn5, ?_, ?_⟩
        · intro g hgeq
          obtain rfl := (Option.some.injEq _ _ ▸ hgeq :)
          exact ⟨hg, u, cm, rfl, rfl, inv.olWalk u (extractMin_mem hpop),
            pop_goal_min inv hpop⟩
        · intro hc
          exact absurd hc (by simp)
      · have hng : goal u.position = false := by simpa using hg
        have inv' := step_preserve hirr hcloU inv hpop hng
        have hm' := measure_decrease hirr hcloU inv hpop
        obtain ⟨cmF, res, heq, hout⟩ := ih _ _ inv' (by omega)
        refine ⟨cmF, res, ?_, hout⟩
        simp [searchLoopO, hpop, hng, heq]

/-! ### Path reconstruction -/

theorem rebuildForward_acc (hm : HeightMap) (cm : List (Pos × DijkstraNode)) :
    ∀ (fuel : Nat) (p : Pos) (acc : List (Pos × Nat)),
      rebuildForward hm cm fuel p acc = rebuildForward hm cm fuel p [] ++ acc
  | 0, p, acc => by simp [rebuildForward]
  | fuel + 1, p, acc => by
    cases hl : lookupPos cm p with
    | none => simp [rebuildForward, hl]
    | some node =>
      cases hpar : node.parent with
      | none => simp [rebuildForward, hl, hpar]
      | some pp =>
        simp only [rebuildForward, hl, hpar]
        rw [rebuildForward_acc hm cm fuel pp ((p, heightAt hm p) :: acc),
          rebuildForward_acc hm cm fuel pp [(p, heightAt hm p)]]
        simp

theorem rebuildReverse_acc (hm : HeightMap) (cm : List (Pos × DijkstraNode)) :
    ∀ (fuel : Nat) (p : Pos) (acc : List (Pos × Nat)),
      rebuildReverse hm cm fuel p acc = acc ++ rebuildReverse hm cm fuel p []
  | 0, p, acc => by simp [rebuildReverse]
  | fuel + 1, p, acc => by
    cases hl : lookupPos cm p with
    | none => simp [rebuildReverse, hl]
    | some node =>
      cases hpar : node.parent with
      | none => simp [rebuildReverse, hl, hpar]
      | some pp =>
        simp only [rebuildReverse, hl, hpar]
        rw [rebuildReverse_acc hm cm fuel pp (acc ++ [(p, heightAt hm p)]),
          rebuildReverse_acc hm cm fuel pp ([] ++ [(p, heightAt hm p)])]
        simp

/-- Well-formedness of the parent chains in a closed map. -/
def ChainOK (nb : Pos → List Pos) (src : Pos) (cm : List (Pos × DijkstraNode)) : Prop :=
  ∀ p n, lookupPos cm p = some n → n.position = p ∧
    (n.parent = none → p = src ∧ n.f = 0) ∧
    (∀ pp, n.parent = some pp →
      ∃ m, lookupPos cm pp = some m ∧ m.f + 1 = n.f ∧ p ∈ nb pp)

theorem chainOK_of_loopOut {nb : Pos → List Pos} {goal : Pos → Bool} {src : Pos}
    {univ : List Pos} {cmF : List (Pos × DijkstraNode)} {res : Option Pos}
    (hout : LoopOut nb goal src univ cmF res) : ChainOK nb src cmF := by
  intro p n hl
  have hmem : (p, n) ∈ cmF := lookupPos_mem hl
  have hpos : n.position = p := hout.cmPos (p, n) hmem
  obtain ⟨h1, h2⟩ := hout.cmChain (p, n) hmem
  exact ⟨hpos, h1, h2⟩

theorem chain_f_bound {nb : Pos → List Pos} {src : Pos} {cm : List (Pos × DijkstraNode)}
    (hok : ChainOK nb src cm) :
    ∀ (d : Nat) (p : Pos) (n : DijkstraNode), lookupPos cm p = some n → n.f = d →
      ∃ ks : List Pos, ks.Nodup ∧ ks.length = d + 1 ∧
        ∀ k ∈ ks, ∃ nk, lookupPos cm k = some nk ∧ nk.f ≤ d := by
  intro d
  induction d using Nat.strong_induction_on with
  | _ d ih =>
    intro p n hl hf
    obtain ⟨hpos, hnone, hsome⟩ := hok p n hl
    cases hpar : n.parent with
    | none =>
      obtain ⟨hps, hf0⟩ := hnone hpar
      refine ⟨[p], List.nodup_singleton _, by simp only [List.length_singleton]; omega, ?_⟩
      intro k hk
      rcases List.mem_singleton.mp hk with rfl
      exact ⟨n, hl, by omega⟩
    | some pp =>
      obtain ⟨m, hm1, hm2, _⟩ := hsome pp hpar
      have hd : 0 < d := by omega
      obtain ⟨ks, hknd, hklen, hkmem⟩ := ih m.f (by omega) pp m hm1 rfl
      refine ⟨p :: ks, ?_, by simp; omega, ?_⟩
      · rw [List.nodup_cons]
        refine ⟨fun hc => ?_, hknd⟩
        obtain ⟨nk, hnk1, hnk2⟩ := hkmem p hc
        rw [hl] at hnk1
        obtain rfl := (Option.some.injEq _ _ ▸ hnk1 :)
        omega
      · intro k hk
        rcases List.mem_cons.mp hk with rfl | hk
        · exact ⟨n, hl, by omega⟩
        · obtain ⟨nk, hnk1, hnk2⟩ := hkmem k hk
          exact ⟨nk, hnk1, by omega⟩

theorem lookup_f_lt_length {nb : Pos → List Pos} {src : Pos} {cm : List (Pos × DijkstraNode)}
    (hok : ChainOK nb src cm) {p : Pos} {n : DijkstraNode}
    (hl : lookupPos cm p = some n) : n.f < cm.length := by
  obtain ⟨ks, hknd, hklen, hkmem⟩ := chain_f_bound hok n.f p n hl rfl
  have hsub : ks.toFinset ⊆ (keys cm).toFinset := by
    intro a ha
    rw [List.mem_toFinset] at ha ⊢
    obtain ⟨nk, hnk1, _⟩ := hkmem a ha
    exact mem_keys_of_lookupPos hnk1
  have h1 : ks.toFinset.card = n.f + 1 := by
    rw [List.toFinset_card_of_nodup hknd, hklen]
  have h2 : (keys cm).toFinset.card ≤ (keys cm).length := List.toFinset_card_le _
  have h3 : (keys cm).length = cm.length := List.length_map _ _
  have h4 := Finset.card_le_card hsub
  omega

theorem rebuildForward_spec {hm : HeightMap} {nb : Pos → List Pos} {src : Pos}
    {cm : List (Pos × DijkstraNode)} (hok : ChainOK nb src cm) :
    ∀ (d : Nat) (p : Pos) (n : DijkstraNode), lookupPos cm p = some n → n.f = d →
      ∀ fuel, d < fuel →
      (rebuildForward hm cm fuel p []).length = d + 1 ∧
      (rebuildForward hm cm fuel p []).head? = some (src, heightAt hm src) ∧
      (rebuildForward hm cm fuel p []).getLast? = some (p, heightAt hm p) ∧
      List.Chain' (fun a b => b.1 ∈ nb a.1 ∧ a.2 = heightAt hm a.1 ∧ b.2 = heightAt hm b.1)
        (rebuildForward hm cm fuel p []) := by
  intro d
  induction d using Nat.strong_induction_on with
  | _ d ih =>
    intro p n hl hf fuel hfuel
    obtain ⟨fu, rfl⟩ : ∃ fu, fuel = fu + 1 := ⟨fuel - 1, by omega⟩
    obtain ⟨hpos, hnone, hsome⟩ := hok p n hl
    cases hpar : n.parent with
    | none =>
      obtain ⟨hps, hf0⟩ := hnone hpar
      have hred : rebuildForward hm cm (fu + 1) p [] = [(p, heightAt hm p)] := by
        simp [rebuildForward, hl, hpar]
      rw [hred, hps]
      refine ⟨by simp only [List.length_singleton]; omega, by simp, by simp,
        List.chain'_singleton _⟩
    | some pp =>
      obtain ⟨m, hm1, hm2, hm3⟩ := hsome pp hpar
      have hred : rebuildForward hm cm (fu + 1) p [] =
          rebuildForward hm cm fu pp [] ++ [(p, heightAt hm p)] := by
        simp only [rebuildForward, hl, hpar]
        rw [rebuildForward_acc hm cm fu pp [(p, heightAt hm p)]]
      rw [hred]
      obtain ⟨ihl, ihh, ihg, ihc⟩ := ih m.f (by omega) pp m hm1 rfl fu (by omega)
      have hne : rebuildForward hm cm fu pp [] ≠ [] := by
        intro hc
        rw [hc] at ihl
        simp at ihl
      refine ⟨?_, ?_, ?_, ?_⟩
      · simp only [List.length_append, ihl, List.length_singleton]
        omega
      · rw [List.head?_append, ihh]
        rfl
      · exact List.getLast?_concat _
      · rw [List.chain'_append]
        refine ⟨ihc, List.chain'_singleton _, ?_⟩
        intro x hx y hy
        rw [ihg] at hx
        rcases Option.mem_some_iff.mp hx with rfl
        rcases Option.mem_some_iff.mp (by simpa using hy) with rfl
        exact ⟨hm3, rfl, rfl⟩

theorem rebuildReverse_spec {hm : HeightMap} {nb : Pos → List Pos} {src : Pos}
    {cm : List (Pos × DijkstraNode)} (hok : ChainOK nb src cm) :
    ∀ (d : Nat) (p : Pos) (n : DijkstraNode), lookupPos cm p = some n → n.f = d →
      ∀ fuel, d < fuel →
      (rebuildReverse hm cm fuel p []).length = d + 1 ∧
      (rebuildReverse hm cm fuel p []).head? = some (p, heightAt hm p) ∧
      (rebuildReverse hm cm fuel p []).getLast? = some (src, heightAt hm src) ∧
      List.Chain' (fun a b => a.1 ∈ nb b.1 ∧ a.2 = heightAt hm a.1 ∧ b.2 = heightAt hm b.1)
        (rebuildReverse hm cm fuel p []) := by
  intro d
  induction d using Nat.strong_induction_on with
  | _ d ih =>
    intro p n hl hf fuel hfuel
    obtain ⟨fu, rfl⟩ : ∃ fu, fuel = fu + 1 := ⟨fuel - 1, by omega⟩
    obtain ⟨hpos, hnone, hsome⟩ := hok p n hl
    cases hpar : n.parent with
    | none =>
      obtain ⟨hps, hf0⟩ := hnone hpar
      have hred : rebuildReverse hm cm (fu + 1) p [] = [(p, heightAt hm p)] := by
        simp [rebuildReverse, hl, hpar]
      rw [hred, hps]
      refine ⟨by simp only [List.length_singleton]; omega, by simp, by simp,
        List.chain'_singleton _⟩
    | some pp =>
      obtain ⟨m, hm1, hm2, hm3⟩ := hsome pp hpar
      have hred : rebuildReverse hm cm (fu + 1) p [] =
          [(p, heightAt hm p)] ++ rebuildReverse hm cm fu pp [] := by
        simp only [rebuildReverse, hl, hpar]
        rw [rebuildReverse_acc hm cm fu pp ([] ++ [(p, heightAt hm p)])]
        simp
      rw [hred]
      obtain ⟨ihl, ihh, ihg, ihc⟩ := ih m.f (by omega) pp m hm1 rfl fu (by omega)
      have hne : rebuildReverse hm cm fu pp [] ≠ [] := by
        intro hc
        rw [hc] at ihl
        simp at ihl
      refine ⟨?_, ?_, ?_, ?_⟩
      · simp only [List.length_append, ihl, List.length_singleton]
        omega
      · simp
      · rw [List.getLast?_append, ihg]
        rfl
      · rw [List.chain'_append]
        refine ⟨List.chain'_singleton _, ihc, ?_⟩
        intro x hx y hy
        rcases Option.mem_some_iff.mp (by simpa using hx) with rfl
        rw [ihh] at hy
        rcases Option.mem_some_iff.mp hy with rfl
        exact ⟨hm3, rfl, rfl⟩

/-! ### Facts about the two neighbour rules and the cell universe -/

theorem mem_if_singleton {c : Prop} [Decidable c] {x q : Pos} :
    (q ∈ if c then [x] else ([] : List Pos)) ↔ c ∧ q = x := by
  by_cases h : c <;> simp [h]

theorem mem_higher_iff {hm : HeightMap} {p q : Pos} :
    q ∈ get_higher_neighbours hm p ↔
      ((p.1 > 0 ∧ heightAt hm (p.1 - 1, p.2) ≤ heightAt hm p + 1 ∧ q = (p.1 - 1, p.2)) ∨
       (p.1 < rows hm - 1 ∧ heightAt hm (p.1 + 1, p.2) ≤ heightAt hm p + 1 ∧ q = (p.1 + 1, p.2)) ∨
       (p.2 > 0 ∧ heightAt hm (p.1, p.2 - 1) ≤ heightAt hm p + 1 ∧ q = (p.1, p.2 - 1)) ∨
       (p.2 < width hm - 1 ∧ heightAt hm (p.1, p.2 + 1) ≤ heightAt hm p + 1 ∧
         q = (p.1, p.2 + 1))) := by
  unfold get_higher_neighbours
  simp only [List.mem_append, mem_if_singleton]
  tauto

theorem mem_lower_iff {hm : HeightMap} {p q : Pos} :
    q ∈ get_lower_neighbours hm p ↔
      ((p.1 > 0 ∧ heightAt hm (p.1 - 1, p.2) ≥ heightAt hm p - 1 ∧ q = (p.1 - 1, p.2)) ∨
       (p.1 < rows hm - 1 ∧ heightAt hm (p.1 + 1, p.2) ≥ heightAt hm p - 1 ∧ q = (p.1 + 1, p.2)) ∨
       (p.2 > 0 ∧ heightAt hm (p.1, p.2 - 1) ≥ heightAt hm p - 1 ∧ q = (p.1, p.2 - 1)) ∨
       (p.2 < width hm - 1 ∧ heightAt hm (p.1, p.2 + 1) ≥ heightAt hm p - 1 ∧
         q = (p.1, p.2 + 1))) := by
  unfold get_lower_neighbours
  simp only [List.mem_append, mem_if_singleton]
  tauto

theorem ne_of_shift_row_lt {p : Pos} (h : p.1 > 0) : p ≠ (p.1 - 1, p.2) := by
  intro hc
  have := congrArg Prod.fst hc
  simp only at this
  omega

theorem higher_irrefl (hm : HeightMap) : ∀ p, p ∉ get_higher_neighbours hm p := by
  intro p hc
  rcases mem_higher_iff.mp hc with ⟨h1, _, h3⟩ | ⟨h1, _, h3⟩ | ⟨h1, _, h3⟩ | ⟨h1, _, h3⟩ <;>
    · have := congrArg Prod.fst h3
      have h2 := congrArg Prod.snd h3
      simp only at this h2
      omega

theorem lower_irrefl (hm : HeightMap) : ∀ p, p ∉ get_lower_neighbours hm p := by
  intro p hc
  rcases mem_lower_iff.mp hc with ⟨h1, _, h3⟩ | ⟨h1, _, h3⟩ | ⟨h1, _, h3⟩ | ⟨h1, _, h3⟩ <;>
    · have := congrArg Prod.fst h3
      have h2 := congrArg Prod.snd h3
      simp only at this h2
      omega

theorem higher_inBounds {hm : HeightMap} {p q : Pos} (hp : inBounds hm p)
    (hq : q ∈ get_higher_neighbours hm p) : inBounds hm q := by
  obtain ⟨hp1, hp2⟩ := hp
  rcases mem_higher_iff.mp hq with ⟨h1, _, rfl⟩ | ⟨h1, _, rfl⟩ | ⟨h1, _, rfl⟩ | ⟨h1, _, rfl⟩ <;>
    exact ⟨by omega, by omega⟩

theorem lower_inBounds {hm : HeightMap} {p q : Pos} (hp : inBounds hm p)
    (hq : q ∈ get_lower_neighbours hm p) : inBounds hm q := by
  obtain ⟨hp1, hp2⟩ := hp
  rcases mem_lower_iff.mp hq with ⟨h1, _, rfl⟩ | ⟨h1, _, rfl⟩ | ⟨h1, _, rfl⟩ | ⟨h1, _, rfl⟩ <;>
    exact ⟨by omega, by omega⟩

theorem higher_height {hm : HeightMap} {p q : Pos} (hq : q ∈ get_higher_neighbours hm p) :
    heightAt hm q ≤ heightAt hm p + 1 := by
  rcases mem_higher_iff.mp hq with ⟨_, h2, rfl⟩ | ⟨_, h2, rfl⟩ | ⟨_, h2, rfl⟩ | ⟨_, h2, rfl⟩ <;>
    exact h2

theorem lower_height {hm : HeightMap} {p q : Pos} (hq : q ∈ get_lower_neighbours hm p) :
    heightAt hm q ≥ heightAt hm p - 1 := by
  rcases mem_lower_iff.mp hq with ⟨_, h2, rfl⟩ | ⟨_, h2, rfl⟩ | ⟨_, h2, rfl⟩ | ⟨_, h2, rfl⟩ <;>
    exact h2

theorem mem_allCells {hm : HeightMap} {p : Pos} : p ∈ allCells hm ↔ inBounds hm p := by
  obtain ⟨i, j⟩ := p
  simp [allCells, List.mem_product, inBounds]

theorem allCells_nodup (hm : HeightMap) : (allCells hm).Nodup :=
  (List.nodup_range _).product (List.nodup_range _)

theorem allCells_length (hm : HeightMap) : (allCells hm).length = numCells hm := by
  unfold allCells numCells
  rw [List.length_product]
  simp

theorem higher_closedU (hm : HeightMap) :
    ∀ p ∈ allCells hm, ∀ q ∈ get_higher_neighbours hm p, q ∈ allCells hm := by
  intro p hp q hq
  exact mem_allCells.mpr (higher_inBounds (mem_allCells.mp hp) hq)

theorem lower_closedU (hm : HeightMap) :
    ∀ p ∈ allCells hm, ∀ q ∈ get_lower_neighbours hm p, q ∈ allCells hm := by
  intro p hp q hq
  exact mem_allCells.mpr (lower_inBounds (mem_allCells.mp hp) hq)

/-! ### Initial state -/

theorem inv_init {nb : Pos → List Pos} {goal : Pos → Bool} {src : Pos} {univ : List Pos}
    (hsrc : src ∈ univ) :
    Inv nb goal src univ [⟨src, none, 0⟩] [] := by
  refine ⟨?_, ?_, ?_, ?_, ?_, ?_, ?_, ?_, ?_, ?_, ?_, ?_, ?_⟩
  · simp [poss, keys]
  · intro n hn
    rcases List.mem_singleton.mp hn with rfl
    exact hsrc
  · simp [keys]
  · simp
  · intro n hn
    rcases List.mem_singleton.mp hn with rfl
    exact Walks.refl
  · simp
  · intro n hn L hw
    rcases List.mem_singleton.mp hn with rfl
    exact Nat.zero_le _
  · intro n hn m hmm
    rcases List.mem_singleton.mp hn with rfl
    rcases List.mem_singleton.mp hmm with rfl
    omega
  · simp [keys]
  · refine Or.inr ?_
    simp [poss]
  · simp [keys]
  · intro n hn
    rcases List.mem_singleton.mp hn with rfl
    exact ⟨fun _ => ⟨rfl, rfl⟩, fun pp hpp => by simp at hpp⟩
  · simp

theorem measure_init {univ : List Pos} {src : Pos} (hnd : univ.Nodup) (hsrc : src ∈ univ) :
    searchMeasure univ [⟨src, none, 0⟩] [] = univ.length := by
  unfold searchMeasure
  have hset : (poss [⟨src, none, 0⟩]).toFinset ∪ (keys ([] : List (Pos × DijkstraNode))).toFinset
      = ({src} : Finset Pos) := by
    simp [poss, keys]
  rw [hset]
  rw [Finset.card_sdiff (by simp [hsrc])]
  have hc : univ.toFinset.card = univ.length := List.toFinset_card_of_nodup hnd
  have hl : 0 < univ.length := List.length_pos_of_mem hsrc
  simp only [Finset.card_singleton, hc, List.length_singleton]
  omega

/-- The forward search runs to completion and its final state satisfies
the loop postcondition. -/
theorem forward_run (hm : HeightMap) (hv : ValidMap hm) :
    ∃ cmF res,
      searchLoopO (fun p => get_higher_neighbours hm p) (fun p => p == hm.endPos)
        (numCells hm + 1) [⟨hm.start, none, 0⟩] [] = some (cmF, res) ∧
      LoopOut (fun p => get_higher_neighbours hm p) (fun p => p == hm.endPos) hm.start
        (allCells hm) cmF res := by
  have hsrc : hm.start ∈ allCells hm := mem_allCells.mpr hv.startIn
  refine loop_post (higher_irrefl hm) (higher_closedU hm) (numCells hm + 1) _ _
    (inv_init hsrc) ?_
  rw [measure_init (allCells_nodup hm) hsrc, allCells_length]
  omega

/-- The reverse search runs to completion and its final state satisfies
the loop postcondition. -/
theorem reverse_run (hm : HeightMap) (hv : ValidMap hm) :
    ∃ cmF res,
      searchLoopO (fun p => get_lower_neighbours hm p) (fun p => heightAt hm p == 0)
        (numCells hm + 1) [⟨hm.endPos, none, 0⟩] [] = some (cmF, res) ∧
      LoopOut (fun p => get_lower_neighbours hm p) (fun p => heightAt hm p == 0) hm.endPos
        (allCells hm) cmF res := by
  have hsrc : hm.endPos ∈ allCells hm := mem_allCells.mpr hv.endIn
  refine loop_post (lower_irrefl hm) (lower_closedU hm) (numCells hm + 1) _ _
    (inv_init hsrc) ?_
  rw [measure_init (allCells_nodup hm) hsrc, allCells_length]
  omega

theorem keys_closed_walk {nb : Pos → List Pos} {src : Pos} {cmF : List (Pos × DijkstraNode)}
    (hclo : ∀ p ∈ keys cmF, ∀ v ∈ nb p, v ∈ keys cmF) (hsrc : src ∈ keys cmF) :
    ∀ {L q}, Walks nb src L q → q ∈ keys cmF := by
  intro L q hw
  induction hw with
  | refl => exact hsrc
  | step hwp hq ih => exact hclo _ ih _ hq

/-- The four axial (north/south/west/east) neighbour positions of `p`,
expressed without natural-number subtraction. -/
def IsNSEW (p q : Pos) : Prop :=
  (q.1 + 1 = p.1 ∧ q.2 = p.2) ∨ (p.1 + 1 = q.1 ∧ q.2 = p.2) ∨
  (q.2 + 1 = p.2 ∧ q.1 = p.1) ∨ (p.2 + 1 = q.2 ∧ q.1 = p.1)

/-- A 1×2 grid `[[0, 1]]` with start `(0,0)` and end `(0,1)`;
both queries succeed on it. -/
def hmW1 : HeightMap := ⟨[[0, 1]], (0, 0), (0, 1)⟩

/-! ### Claim theorems -/

/-- C5 (counterexample): `HeightMap::new` accepts empty elevation data
and ragged (unequal-width) rows without any error: construction
succeeds and stores the invalid data unchanged, so no `InvalidShape`
failure ever happens. -/
theorem new_accepts_invalid_shape :
    HeightMap.new [] (0, 0) (0, 0) = { heights := [], start := (0, 0), endPos := (0, 0) } ∧
    HeightMap.new [[1], [2, 3]] (0, 0) (0, 0) =
      { heights := [[1], [2, 3]], start := (0, 0), endPos := (0, 0) } :=
  ⟨rfl, rfl⟩

/-- C5 (amended): grid construction performs no validation at all:
`HeightMap::new` always succeeds, storing the supplied elevation data,
start and end unchanged — also for empty or ragged input. -/
theorem new_stores_input (heights : List (List Nat)) (s e : Pos) :
    HeightMap.new heights s e = { heights := heights, start := s, endPos := e } :=
  rfl

/-- C6: for an in-bounds position `p` of a well-shaped grid,
`get_higher_neighbours` returns exactly the in-bounds axial neighbours
of elevation at most `heightAt p + 1`, and `get_lower_neighbours`
exactly the in-bounds axial neighbours of elevation at least
`heightAt p - 1` (`Nat` subtraction saturates like Rust's
`saturating_sub`, so it never underflows). -/
theorem neighbour_rules_exact (hm : HeightMap) (hv : ValidMap hm) (p : Pos)
    (hp : inBounds hm p) :
    ∀ q, (q ∈ get_higher_neighbours hm p ↔
        IsNSEW p q ∧ inBounds hm q ∧ heightAt hm q ≤ heightAt hm p + 1) ∧
      (q ∈ get_lower_neighbours hm p ↔
        IsNSEW p q ∧ inBounds hm q ∧ heightAt hm q ≥ heightAt hm p - 1) := by
  intro q
  obtain ⟨q1, q2⟩ := q
  obtain ⟨hp1, hp2⟩ := hp
  constructor
  · constructor
    · intro hq
      refine ⟨?_, higher_inBounds ⟨hp1, hp2⟩ hq, higher_height hq⟩
      rcases mem_higher_iff.mp hq with ⟨h1, _, h3⟩ | ⟨h1, _, h3⟩ | ⟨h1, _, h3⟩ | ⟨h1, _, h3⟩ <;>
        [exact Or.inl ⟨by rw [Prod.mk.injEq] at h3; omega, by rw [Prod.mk.injEq] at h3; omega⟩;
         exact Or.inr (Or.inl ⟨by rw [Prod.mk.injEq] at h3; omega,
           by rw [Prod.mk.injEq] at h3; omega⟩);
         exact Or.inr (Or.inr (Or.inl ⟨by rw [Prod.mk.injEq] at h3; omega,
           by rw [Prod.mk.injEq] at h3; omega⟩));
         exact Or.inr (Or.inr (Or.inr ⟨by rw [Prod.mk.injEq] at h3; omega,
           by rw [Prod.mk.injEq] at h3; omega⟩))]
    · rintro ⟨hns, ⟨hq1, hq2⟩, hh⟩
      rw [mem_higher_iff]
      rcases hns with ⟨ha, hb⟩ | ⟨ha, hb⟩ | ⟨ha, hb⟩ | ⟨ha, hb⟩
      · refine Or.inl ⟨by omega, ?_, by rw [Prod.mk.injEq]; omega⟩
        have he : (p.1 - 1, p.2) = ((q1, q2) : Pos) := by rw [Prod.mk.injEq]; omega
        rw [he]
        exact hh
      · refine Or.inr (Or.inl ⟨by omega, ?_, by rw [Prod.mk.injEq]; omega⟩)
        have he : (p.1 + 1, p.2) = ((q1, q2) : Pos) := by rw [Prod.mk.injEq]; omega
        rw [he]
        exact hh
      · refine Or.inr (Or.inr (Or.inl ⟨by omega, ?_, by rw [Prod.mk.injEq]; omega⟩))
        have he : (p.1, p.2 - 1) = ((q1, q2) : Pos) := by rw [Prod.mk.injEq]; omega
        rw [he]
        exact hh
      · refine Or.inr (Or.inr (Or.inr ⟨by omega, ?_, by rw [Prod.mk.injEq]; omega⟩))
        have he : (p.1, p.2 + 1) = ((q1, q2) : Pos) := by rw [Prod.mk.injEq]; omega
        rw [he]
        exact hh
  · constructor
    · intro hq
      refine ⟨?_, lower_inBounds ⟨hp1, hp2⟩ hq, lower_height hq⟩
      rcases mem_lower_iff.mp hq with ⟨h1, _, h3⟩ | ⟨h1, _, h3⟩ | ⟨h1, _, h3⟩ | ⟨h1, _, h3⟩ <;>
        [exact Or.inl ⟨by rw [Prod.mk.injEq] at h3; omega, by rw [Prod.mk.injEq] at h3; omega⟩;
         exact Or.inr (Or.inl ⟨by rw [Prod.mk.injEq] at h3; omega,
           by rw [Prod.mk.injEq] at h3; omega⟩);
         exact Or.inr (Or.inr (Or.inl ⟨by rw [Prod.mk.injEq] at h3; omega,
           by rw [Prod.mk.injEq] at h3; omega⟩));
         exact Or.inr (Or.inr (Or.inr ⟨by rw [Prod.mk.injEq] at h3; omega,
           by rw [Prod.mk.injEq] at h3; omega⟩))]
    · rintro ⟨hns, ⟨hq1, hq2⟩, hh⟩
      rw [mem_lower_iff]
      rcases hns with ⟨ha, hb⟩ | ⟨ha, hb⟩ | ⟨ha, hb⟩ | ⟨ha, hb⟩
      · refine Or.inl ⟨by omega, ?_, by rw [Prod.mk.injEq]; omega⟩
        have he : (p.1 - 1, p.2) = ((q1, q2) : Pos) := by rw [Prod.mk.injEq]; omega
        rw [he]
        exact hh
      · refine Or.inr (Or.inl ⟨by omega, ?_, by rw [Prod.mk.injEq]; omega⟩)
        have he : (p.1 + 1, p.2) = ((q1, q2) : Pos) := by rw [Prod.mk.injEq]; omega
        rw [he]
        exact hh
      · refine Or.inr (Or.inr (Or.inl ⟨by omega, ?_, by rw [Prod.mk.injEq]; omega⟩))
        have he : (p.1, p.2 - 1) = ((q1, q2) : Pos) := by rw [Prod.mk.injEq]; omega
        rw [he]
        exact hh
      · refine Or.inr (Or.inr (Or.inr ⟨by omega, ?_, by rw [Prod.mk.injEq]; omega⟩))
        have he : (p.1, p.2 + 1) = ((q1, q2) : Pos) := by rw [Prod.mk.injEq]; omega
        rw [he]
        exact hh

/-- Witness for C6 at the concrete grid `hmW1`, position `(0,0)`,
candidate `(0,1)`. -/
theorem neighbour_rules_exact_witness :
    ((0, 1) ∈ get_higher_neighbours hmW1 (0, 0) ↔
      IsNSEW (0, 0) (0, 1) ∧ inBounds hmW1 (0, 1) ∧
        heightAt hmW1 (0, 1) ≤ heightAt hmW1 (0, 0) + 1) ∧
    ((0, 1) ∈ get_lower_neighbours hmW1 (0, 0) ↔
      IsNSEW (0, 0) (0, 1) ∧ inBounds hmW1 (0, 1) ∧
        heightAt hmW1 (0, 1) ≥ heightAt hmW1 (0, 0) - 1) :=
  neighbour_rules_exact hmW1 (by decide) (0, 0) (by decide) (0, 1)

/-- C9: the `Ord` instance of `DijkstraNode` compares only the cost
fields, in reverse (`other.f.total_cmp(&self.f)`); consequently the
element removed by a heap pop (`extractMin`, the maximum under this
order) has minimal cost `f`. -/
theorem dijkstra_ord_reversed :
    (∀ a b : DijkstraNode, DijkstraNode.cmp a b = (compare a.f b.f).swap) ∧
    (∀ (l : List DijkstraNode) u rest, extractMin l = some (u, rest) →
      ∀ m ∈ l, u.f ≤ m.f ∧ DijkstraNode.cmp u m ≠ Ordering.lt) := by
  constructor
  · intro a b
    unfold DijkstraNode.cmp
    rcases Nat.lt_trichotomy a.f b.f with h | h | h
    · rw [compare_lt_iff_lt.mpr h, compare_gt_iff_gt.mpr h]
      rfl
    · rw [h, compare_eq_iff_eq.mpr rfl]
      rfl
    · rw [compare_gt_iff_gt.mpr h, compare_lt_iff_lt.mpr h]
      rfl
  · intro l u rest hpop m hmem
    have hle := extractMin_min hpop m hmem
    refine ⟨hle, fun hc => ?_⟩
    unfold DijkstraNode.cmp at hc
    rw [compare_lt_iff_lt] at hc
    omega

/-- Witness for C9: popping from a concrete two-element open list. -/
theorem dijkstra_ord_reversed_witness :
    (⟨(1, 1), none, 1⟩ : DijkstraNode).f ≤ (⟨(0, 0), none, 2⟩ : DijkstraNode).f ∧
    DijkstraNode.cmp ⟨(1, 1), none, 1⟩ ⟨(0, 0), none, 2⟩ ≠ Ordering.lt :=
  dijkstra_ord_reversed.2 [⟨(0, 0), none, 2⟩, ⟨(1, 1), none, 1⟩] ⟨(1, 1), none, 1⟩
    [⟨(0, 0), none, 2⟩] (by decide) ⟨(0, 0), none, 2⟩ (by decide)

/-- C10: if the source cell itself satisfies the goal predicate (start
equals end for the forward query; the end cell has elevation 0 for the
reverse query), the search returns the single-element path containing
exactly the source and its elevation, so the step count is 0. -/
theorem source_goal_singleton (hm : HeightMap) :
    (hm.start = hm.endPos →
      calculate_start_end_path hm = [(hm.start, heightAt hm hm.start)]) ∧
    (heightAt hm hm.endPos = 0 →
      calculate_shortest_hike_path hm = [(hm.endPos, 0)]) := by
  constructor
  · intro h
    simp only [calculate_start_end_path]
    rw [← h]
    have h1 : searchLoopO (fun p => get_higher_neighbours hm p) (fun p => p == hm.start)
        (numCells hm + 1) [⟨hm.start, none, 0⟩] [] =
        some ([(hm.start, ⟨hm.start, none, 0⟩)], some hm.start) := by
      simp [searchLoopO, extractMin]
    rw [h1]
    simp [rebuildForward, lookupPos, List.find?]
  · intro h
    simp only [calculate_shortest_hike_path]
    have h1 : searchLoopO (fun p => get_lower_neighbours hm p) (fun p => heightAt hm p == 0)
        (numCells hm + 1) [⟨hm.endPos, none, 0⟩] [] =
        some ([(hm.endPos, ⟨hm.endPos, none, 0⟩)], some hm.endPos) := by
      simp [searchLoopO, extractMin, h]
    rw [h1]
    simp [rebuildReverse, lookupPos, List.find?, h]

/-- Witness for C10 on the grids `[[3]]` (start = end) and `[[0]]`
(end has elevation 0). -/
theorem source_goal_singleton_witness :
    calculate_start_end_path ⟨[[3]], (0, 0), (0, 0)⟩ =
      [((0, 0), heightAt ⟨[[3]], (0, 0), (0, 0)⟩ (0, 0))] ∧
    calculate_shortest_hike_path ⟨[[0]], (0, 0), (0, 0)⟩ = [((0, 0), 0)] :=
  ⟨(source_goal_singleton ⟨[[3]], (0, 0), (0, 0)⟩).1 rfl,
   (source_goal_singleton ⟨[[0]], (0, 0), (0, 0)⟩).2 rfl⟩

/-- A 2×2 grid with every elevation 5 and end `(1,1)`: no cell has
elevation 0, so the reverse query's goal is unsatisfiable. -/
def hmC2 : HeightMap := ⟨[[5, 5], [5, 5]], (0, 0), (1, 1)⟩

/-- C2 (counterexample): on `hmC2` no cell at all has elevation 0, so
the goal predicate of the reverse query is never true for any reachable
cell — yet `calculate_shortest_hike_path` returns a non-empty
three-element path (reconstructed from the dummy initial
`target_pos = (0,0)`), not an explicit no-path result, and no element
of the returned path satisfies the goal. -/
theorem hike_unreachable_returns_bogus_path :
    (∀ p ∈ allCells hmC2, heightAt hmC2 p ≠ 0) ∧
    calculate_shortest_hike_path hmC2 = [((0, 0), 5), ((0, 1), 5), ((1, 1), 5)] := by
  constructor
  · decide
  · decide

/-- C2 (amended): for the forward query the property holds: whenever
the end cell is unreachable from the start under the ascent-limited
rule, `calculate_start_end_path` returns the empty path — an explicit
no-path value, distinct from a panic and from the one-element path
`[(start, elevation)]` a trivially satisfied goal produces.  (The
reverse query does not satisfy the claim: when no elevation-0 cell is
reachable it can return a non-empty path to the dummy position
`(0,0)`, as the counterexample shows.) -/
theorem forward_unreachable_empty (hm : HeightMap) (hv : ValidMap hm)
    (hunreach : ∀ L, ¬ Walks (fun p => get_higher_neighbours hm p) hm.start L hm.endPos) :
    calculate_start_end_path hm = [] := by
  obtain ⟨cmF, res, heq, hout⟩ := forward_run hm hv
  cases res with
  | some g =>
    obtain ⟨hgoal, u, cmP, hcmF, hupos, huwalk, humin⟩ := hout.onSome g rfl
    have hge : g = hm.endPos := by simpa using hgoal
    subst hge
    exact absurd huwalk (hunreach u.f)
  | none =>
    have hnotin : hm.endPos ∉ keys cmF := by
      intro hc
      have := (hout.onNone rfl).1 hm.endPos hc
      simp at this
    have hnone : lookupPos cmF hm.endPos = none := lookupPos_eq_none_iff.mpr hnotin
    simp [calculate_start_end_path, heq, rebuildForward, hnone]

/-- Witness for the amended C2 on the grid `[[0, 5]]`, whose end cell
`(0,1)` (elevation 5) is unreachable from the start `(0,0)`. -/
theorem forward_unreachable_empty_witness :
    calculate_start_end_path ⟨[[0, 5]], (0, 0), (0, 1)⟩ = [] := by
  have haux : ∀ L q, Walks (fun p => get_higher_neighbours ⟨[[0, 5]], (0, 0), (0, 1)⟩ p)
      (0, 0) L q → q = (0, 0) := by
    intro L q hw
    induction hw with
    | refl => rfl
    | step hwp hq ih =>
      rw [ih] at hq
      rw [show get_higher_neighbours ⟨[[0, 5]], (0, 0), (0, 1)⟩ (0, 0) = [] from by decide] at hq
      exact absurd hq (List.not_mem_nil _)
  exact forward_unreachable_empty ⟨[[0, 5]], (0, 0), (0, 1)⟩ (by decide)
    (fun L hw => by have h := haux L _ hw; simp at h)

/-- A 1×2 grid `[[1, 0]]` with end `(0,0)`: the reverse query finds the
elevation-0 cell `(0,1)` one step away. -/
def hmC4 : HeightMap := ⟨[[1, 0]], (0, 0), (0, 0)⟩

/-- C4 (counterexample): on `hmC4` the reverse search succeeds, but the
returned path runs goal-to-source: its first element is the discovered
elevation-0 cell `(0,1)`, not the source (the end cell `(0,0)`) paired
with its elevation. -/
theorem hike_path_head_not_source :
    calculate_shortest_hike_path hmC4 = [((0, 1), 0), ((0, 0), 1)] ∧
    (calculate_shortest_hike_path hmC4).head? ≠
      some (hmC4.endPos, heightAt hmC4 hmC4.endPos) := by
  constructor
  · decide
  · decide

/-- C4 (amended): every successful search returns a non-empty path of
`(position, elevation)` pairs; the forward path is in source-to-goal
order (first element `(start, elevation)`, last element
`(end, elevation)`), while the reverse path is in goal-to-source order:
its first element is the discovered elevation-0 cell and its last
element is the source of the reverse search (the end cell). -/
theorem path_endpoints (hm : HeightMap) (hv : ValidMap hm) :
    (∀ cmF g,
      searchLoopO (fun p => get_higher_neighbours hm p) (fun p => p == hm.endPos)
        (numCells hm + 1) [⟨hm.start, none, 0⟩] [] = some (cmF, some g) →
      calculate_start_end_path hm ≠ [] ∧
      (calculate_start_end_path hm).head? = some (hm.start, heightAt hm hm.start) ∧
      (calculate_start_end_path hm).getLast? = some (hm.endPos, heightAt hm hm.endPos)) ∧
    (∀ cmF g,
      searchLoopO (fun p => get_lower_neighbours hm p) (fun p => heightAt hm p == 0)
        (numCells hm + 1) [⟨hm.endPos, none, 0⟩] [] = some (cmF, some g) →
      calculate_shortest_hike_path hm ≠ [] ∧ heightAt hm g = 0 ∧
      (calculate_shortest_hike_path hm).head? = some (g, heightAt hm g) ∧
      (calculate_shortest_hike_path hm).getLast? = some (hm.endPos, heightAt hm hm.endPos)) := by
  constructor
  · intro cmF g heq
    obtain ⟨cmF', res', heq', hout⟩ := forward_run hm hv
    rw [heq] at heq'
    obtain ⟨rfl, rfl⟩ : cmF = cmF' ∧ some g = res' := by simpa using heq'
    obtain ⟨hgoal, u, cmP, hcmF, hupos, huwalk, humin⟩ := hout.onSome g rfl
    have hge : g = hm.endPos := by simpa using hgoal
    subst hge
    have hlook : lookupPos cmF hm.endPos = some u := by
      rw [hcmF, lookupPos_cons, if_pos rfl]
    have hok := chainOK_of_loopOut hout
    have hflt := lookup_f_lt_length hok hlook
    obtain ⟨hlen, hhead, hlast, _⟩ :=
      rebuildForward_spec hok u.f hm.endPos u hlook rfl (cmF.length + 1) (by omega)
    have hpath : calculate_start_end_path hm =
        rebuildForward hm cmF (cmF.length + 1) hm.endPos [] := by
      simp [calculate_start_end_path, heq]
    rw [hpath]
    refine ⟨?_, hhead, hlast⟩
    intro hc
    rw [hc] at hlen
    simp at hlen
  · intro cmF g heq
    obtain ⟨cmF', res', heq', hout⟩ := reverse_run hm hv
    rw [heq] at heq'
    obtain ⟨rfl, rfl⟩ : cmF = cmF' ∧ some g = res' := by simpa using heq'
    obtain ⟨hgoal, u, cmP, hcmF, hupos, huwalk, humin⟩ := hout.onSome g rfl
    have hg0 : heightAt hm g = 0 := by simpa using hgoal
    have hlook : lookupPos cmF g = some u := by
      rw [hcmF, lookupPos_cons, if_pos rfl]
    have hok := chainOK_of_loopOut hout
    have hflt := lookup_f_lt_length hok hlook
    obtain ⟨hlen, hhead, hlast, _⟩ :=
      rebuildReverse_spec hok u.f g u hlook rfl (cmF.length + 1) (by omega)
    have hpath : calculate_shortest_hike_path hm =
        rebuildReverse hm cmF (cmF.length + 1) g [] := by
      simp [calculate_shortest_hike_path, heq]
    rw [hpath]
    refine ⟨?_, hg0, hhead, hlast⟩
    intro hc
    rw [hc] at hlen
    simp at hlen

/-- Witness for the amended C4 on `hmW1` with the concrete final closed
maps of both runs. -/
theorem path_endpoints_witness :
    (calculate_start_end_path hmW1 ≠ [] ∧
      (calculate_start_end_path hmW1).head? = some (hmW1.start, heightAt hmW1 hmW1.start) ∧
      (calculate_start_end_path hmW1).getLast? =
        some (hmW1.endPos, heightAt hmW1 hmW1.endPos)) ∧
    (calculate_shortest_hike_path hmW1 ≠ [] ∧ heightAt hmW1 (0, 0) = 0 ∧
      (calculate_shortest_hike_path hmW1).head? = some ((0, 0), heightAt hmW1 (0, 0)) ∧
      (calculate_shortest_hike_path hmW1).getLast? =
        some (hmW1.endPos, heightAt hmW1 hmW1.endPos)) :=
  ⟨(path_endpoints hmW1 (by decide)).1
      [((0, 1), ⟨(0, 1), some (0, 0), 1⟩), ((0, 0), ⟨(0, 0), none, 0⟩)] (0, 1) (by decide),
   (path_endpoints hmW1 (by decide)).2
      [((0, 0), ⟨(0, 0), some (0, 1), 1⟩), ((0, 1), ⟨(0, 1), none, 0⟩)] (0, 0) (by decide)⟩

/-- A 1×5 ridge `[[1, 3, 2, 1, 0]]` with end `(0,0)`. -/
def hmC7 : HeightMap := ⟨[[1, 3, 2, 1, 0]], (0, 0), (0, 0)⟩

/-- C7 (counterexample): the reverse query on `hmC7` returns the path
with elevations `[0, 1, 2, 3, 1]`; its last consecutive pair `(3, 1)`
violates the descent-limited rule `elev[next] ≥ elev[prev] - 1`
(here `1 < 3 - 1`), because the path is returned in goal-to-source
order while each search step constrains the opposite direction. -/
theorem hike_path_violates_reverse_rule :
    calculate_shortest_hike_path hmC7 =
      [((0, 4), 0), ((0, 3), 1), ((0, 2), 2), ((0, 1), 3), ((0, 0), 1)] ∧
    ((calculate_shortest_hike_path hmC7).map Prod.snd)[3]? = some 3 ∧
    ((calculate_shortest_hike_path hmC7).map Prod.snd)[4]? = some 1 ∧
    ¬ (1 : Nat) ≥ 3 - 1 := by
  refine ⟨by decide, by decide, by decide, by decide⟩

/-- C7 (amended): in every returned path, each consecutive pair of
recorded elevations climbs by at most one (`elev[next] ≤ elev[prev] + 1`):
the forward path in its source-to-goal order, and the reverse path in
its goal-to-source order (each of its steps inverts one
descent-limited search step). -/
theorem path_climb_invariant (hm : HeightMap) (hv : ValidMap hm) :
    List.Chain' (fun a b => b.2 ≤ a.2 + 1) (calculate_start_end_path hm) ∧
    List.Chain' (fun a b => b.2 ≤ a.2 + 1) (calculate_shortest_hike_path hm) := by
  constructor
  · obtain ⟨cmF, res, heq, hout⟩ := forward_run hm hv
    have hok := chainOK_of_loopOut hout
    cases res with
    | none =>
      have hnotin : hm.endPos ∉ keys cmF := by
        intro hc
        have := (hout.onNone rfl).1 hm.endPos hc
        simp at this
      have hnone : lookupPos cmF hm.endPos = none := lookupPos_eq_none_iff.mpr hnotin
      simp [calculate_start_end_path, heq, rebuildForward, hnone]
    | some g =>
      obtain ⟨hgoal, u, cmP, hcmF, hupos, huwalk, humin⟩ := hout.onSome g rfl
      have hge : g = hm.endPos := by simpa using hgoal
      subst hge
      have hlook : lookupPos cmF hm.endPos = some u := by
        rw [hcmF, lookupPos_cons, if_pos rfl]
      have hflt := lookup_f_lt_length hok hlook
      obtain ⟨_, _, _, hchain⟩ :=
        rebuildForward_spec hok u.f hm.endPos u hlook rfl (cmF.length + 1) (by omega)
      have hpath : calculate_start_end_path hm =
          rebuildForward hm cmF (cmF.length + 1) hm.endPos [] := by
        simp [calculate_start_end_path, heq]
      rw [hpath]
      refine hchain.imp ?_
      rintro a b ⟨hmem, ha, hb⟩
      rw [ha, hb]
      exact higher_height hmem
  · obtain ⟨cmF, res, heq, hout⟩ := reverse_run hm hv
    have hok := chainOK_of_loopOut hout
    have hchain_of : ∀ t : Pos,
        List.Chain' (fun a b => b.2 ≤ a.2 + 1) (rebuildReverse hm cmF (cmF.length + 1) t []) := by
      intro t
      cases hl : lookupPos cmF t with
      | none => simp [rebuildReverse, hl]
      | some n =>
        have hflt := lookup_f_lt_length hok hl
        obtain ⟨_, _, _, hchain⟩ :=
          rebuildReverse_spec hok n.f t n hl rfl (cmF.length + 1) (by omega)
        refine hchain.imp ?_
        rintro a b ⟨hmem, ha, hb⟩
        have := lower_height hmem
        rw [ha, hb]
        omega
    have hpath : calculate_shortest_hike_path hm =
        rebuildReverse hm cmF (cmF.length + 1) (res.getD (0, 0)) [] := by
      simp [calculate_shortest_hike_path, heq]
    rw [hpath]
    exact hchain_of _

/-- Witness for the amended C7 on `hmW1`. -/
theorem path_climb_invariant_witness :
    List.Chain' (fun a b => b.2 ≤ a.2 + 1) (calculate_start_end_path hmW1) ∧
    List.Chain' (fun a b => b.2 ≤ a.2 + 1) (calculate_shortest_hike_path hmW1) :=
  path_climb_invariant hmW1 (by decide)

theorem nodup_subset_length {α : Type} [DecidableEq α] {l1 l2 : List α}
    (h1 : l1.Nodup) (hsub : ∀ a ∈ l1, a ∈ l2) : l1.length ≤ l2.length := by
  have hs : l1.toFinset ⊆ l2.toFinset := by
    intro a ha
    rw [List.mem_toFinset] at ha ⊢
    exact hsub a ha
  have := Finset.card_le_card hs
  rw [List.toFinset_card_of_nodup h1] at this
  exact this.trans (List.toFinset_card_le _)

/-- C3: in both searches, every position enters the closed map at most
once, so no closed entry is ever overwritten or reopened: the final
closed map's key list has no duplicates.  (Since every pop inserts the
popped node's position, this is equivalent to: no node whose position
is already closed is ever popped — the discard step the specification
describes never has anything to discard.) -/
theorem closed_each_position_once (hm : HeightMap) (hv : ValidMap hm) :
    (∀ cmF res,
      searchLoopO (fun p => get_higher_neighbours hm p) (fun p => p == hm.endPos)
        (numCells hm + 1) [⟨hm.start, none, 0⟩] [] = some (cmF, res) →
      (keys cmF).Nodup) ∧
    (∀ cmF res,
      searchLoopO (fun p => get_lower_neighbours hm p) (fun p => heightAt hm p == 0)
        (numCells hm + 1) [⟨hm.endPos, none, 0⟩] [] = some (cmF, res) →
      (keys cmF).Nodup) := by
  constructor
  · intro cmF res heq
    obtain ⟨cmF', res', heq', hout⟩ := forward_run hm hv
    rw [heq] at heq'
    obtain ⟨rfl, rfl⟩ : cmF = cmF' ∧ res = res' := by simpa using heq'
    exact hout.nodupKeys
  · intro cmF res heq
    obtain ⟨cmF', res', heq', hout⟩ := reverse_run hm hv
    rw [heq] at heq'
    obtain ⟨rfl, rfl⟩ : cmF = cmF' ∧ res = res' := by simpa using heq'
    exact hout.nodupKeys

/-- Witness for C3: the concrete runs on `hmW1` yield duplicate-free
closed maps. -/
theorem closed_each_position_once_witness :
    (keys [((0, 1), ⟨(0, 1), some (0, 0), 1⟩), ((0, 0), ⟨(0, 0), none, 0⟩)]).Nodup ∧
    (keys [((0, 0), ⟨(0, 0), some (0, 1), 1⟩), ((0, 1), ⟨(0, 1), none, 0⟩)]).Nodup :=
  ⟨(closed_each_position_once hmW1 (by decide)).1
      [((0, 1), ⟨(0, 1), some (0, 0), 1⟩), ((0, 0), ⟨(0, 0), none, 0⟩)]
      (some (0, 1)) (by decide),
   (closed_each_position_once hmW1 (by decide)).2
      [((0, 0), ⟨(0, 0), some (0, 1), 1⟩), ((0, 1), ⟨(0, 1), none, 0⟩)]
      (some (0, 0)) (by decide)⟩

/-- C8: with fuel `height*width + 1` both search loops finish (they end
only by exhausting the open list or popping a goal node, never by
running out of fuel), and the number of closings — the size of the
final closed map, one insertion per loop iteration — is at most
`height * width`. -/
theorem search_terminates_bounded (hm : HeightMap) (hv : ValidMap hm) :
    (∃ cmF res,
      searchLoopO (fun p => get_higher_neighbours hm p) (fun p => p == hm.endPos)
        (numCells hm + 1) [⟨hm.start, none, 0⟩] [] = some (cmF, res) ∧
      cmF.length ≤ rows hm * width hm) ∧
    (∃ cmF res,
      searchLoopO (fun p => get_lower_neighbours hm p) (fun p => heightAt hm p == 0)
        (numCells hm + 1) [⟨hm.endPos, none, 0⟩] [] = some (cmF, res) ∧
      cmF.length ≤ rows hm * width hm) := by
  constructor
  · obtain ⟨cmF, res, heq, hout⟩ := forward_run hm hv
    refine ⟨cmF, res, heq, ?_⟩
    have hlen : cmF.length = (keys cmF).length := (List.length_map _ _).symm
    rw [hlen]
    have := nodup_subset_length hout.nodupKeys hout.cmUniv
    rw [allCells_length] at this
    exact this
  · obtain ⟨cmF, res, heq, hout⟩ := reverse_run hm hv
    refine ⟨cmF, res, heq, ?_⟩
    have hlen : cmF.length = (keys cmF).length := (List.length_map _ _).symm
    rw [hlen]
    have := nodup_subset_length hout.nodupKeys hout.cmUniv
    rw [allCells_length] at this
    exact this

/-- Witness for C8 on the concrete grid `hmW1`. -/
theorem search_terminates_bounded_witness :
    (∃ cmF res,
      searchLoopO (fun p => get_higher_neighbours hmW1 p) (fun p => p == hmW1.endPos)
        (numCells hmW1 + 1) [⟨hmW1.start, none, 0⟩] [] = some (cmF, res) ∧
      cmF.length ≤ rows hmW1 * width hmW1) ∧
    (∃ cmF res,
      searchLoopO (fun p => get_lower_neighbours hmW1 p) (fun p => heightAt hmW1 p == 0)
        (numCells hmW1 + 1) [⟨hmW1.endPos, none, 0⟩] [] = some (cmF, res) ∧
      cmF.length ≤ rows hmW1 * width hmW1) :=
  search_terminates_bounded hmW1 (by decide)

/-- C1: whenever a goal-satisfying cell is reachable from the search
source under the active adjacency rule, the returned path's edge count
(`path.length - 1`) is the true minimum walk length — for the forward
query from `start` to `end` under `get_higher_neighbours`, and for the
reverse query from `end` to the set of elevation-0 cells under
`get_lower_neighbours`. -/
theorem optimal_path_length (hm : HeightMap) (hv : ValidMap hm) :
    ((∃ L, Walks (fun p => get_higher_neighbours hm p) hm.start L hm.endPos) →
      Walks (fun p => get_higher_neighbours hm p) hm.start
        ((calculate_start_end_path hm).length - 1) hm.endPos ∧
      (∀ L, Walks (fun p => get_higher_neighbours hm p) hm.start L hm.endPos →
        (calculate_start_end_path hm).length - 1 ≤ L)) ∧
    ((∃ L g, heightAt hm g = 0 ∧
        Walks (fun p => get_lower_neighbours hm p) hm.endPos L g) →
      (∃ g, heightAt hm g = 0 ∧
        Walks (fun p => get_lower_neighbours hm p) hm.endPos
          ((calculate_shortest_hike_path hm).length - 1) g) ∧
      (∀ L g, heightAt hm g = 0 →
        Walks (fun p => get_lower_neighbours hm p) hm.endPos L g →
        (calculate_shortest_hike_path hm).length - 1 ≤ L)) := by
  constructor
  · rintro ⟨L0, hreach⟩
    obtain ⟨cmF, res, heq, hout⟩ := forward_run hm hv
    cases res with
    | none =>
      obtain ⟨hng, hclo, hsrc⟩ := hout.onNone rfl
      have hend := keys_closed_walk hclo hsrc hreach
      have := hng _ hend
      simp at this
    | some g =>
      obtain ⟨hgoal, u, cmP, hcmF, hupos, huwalk, humin⟩ := hout.onSome g rfl
      have hge : g = hm.endPos := by simpa using hgoal
      subst hge
      have hlook : lookupPos cmF hm.endPos = some u := by
        rw [hcmF, lookupPos_cons, if_pos rfl]
      have hok := chainOK_of_loopOut hout
      have hflt := lookup_f_lt_length hok hlook
      obtain ⟨hlen, _, _, _⟩ :=
        rebuildForward_spec hok u.f hm.endPos u hlook rfl (cmF.length + 1) (by omega)
      have hpath : calculate_start_end_path hm =
          rebuildForward hm cmF (cmF.length + 1) hm.endPos [] := by
        simp [calculate_start_end_path, heq]
      rw [hpath, hlen]
      constructor
      · simpa using huwalk
      · intro L hw
        have := humin L hm.endPos (by simp) hw
        omega
  · rintro ⟨L0, g0, hg0, hreach⟩
    obtain ⟨cmF, res, heq, hout⟩ := reverse_run hm hv
    cases res with
    | none =>
      obtain ⟨hng, hclo, hsrc⟩ := hout.onNone rfl
      have hg0k := keys_closed_walk hclo hsrc hreach
      have := hng _ hg0k
      rw [hg0] at this
      simp at this
    | some g =>
      obtain ⟨hgoal, u, cmP, hcmF, hupos, huwalk, humin⟩ := hout.onSome g rfl
      have hg : heightAt hm g = 0 := by simpa using hgoal
      have hlook : lookupPos cmF g = some u := by
        rw [hcmF, lookupPos_cons, if_pos rfl]
      have hok := chainOK_of_loopOut hout
      have hflt := lookup_f_lt_length hok hlook
      obtain ⟨hlen, _, _, _⟩ :=
        rebuildReverse_spec hok u.f g u hlook rfl (cmF.length + 1) (by omega)
      have hpath : calculate_shortest_hike_path hm =
          rebuildReverse hm cmF (cmF.length + 1) g [] := by
        simp [calculate_shortest_hike_path, heq]
      rw [hpath, hlen]
      constructor
      · exact ⟨g, hg, by simpa using huwalk⟩
      · intro L g' hg' hw
        have := humin L g' (by simp [hg']) hw
        omega

/-- Witness for C1 on `hmW1`: the end (resp. an elevation-0 cell) is
reachable in one step, and the theorem applies. -/
theorem optimal_path_length_witness :
    Walks (fun p => get_higher_neighbours hmW1 p) hmW1.start
      ((calculate_start_end_path hmW1).length - 1) hmW1.endPos ∧
    (∃ g, heightAt hmW1 g = 0 ∧
      Walks (fun p => get_lower_neighbours hmW1 p) hmW1.endPos
        ((calculate_shortest_hike_path hmW1).length - 1) g) := by
  have h := optimal_path_length hmW1 (by decide)
  exact ⟨(h.1 ⟨1, Walks.step Walks.refl (by decide)⟩).1,
    (h.2 ⟨1, (0, 0), by decide, Walks.step Walks.refl (by decide)⟩).1⟩

end Day12
